import Mathlib

/-!
# Verification of succinct-rs: bit-packed integer vectors and rank support

A shallow embedding of the `succinct-rs` library (files `src/int_vec/mod.rs`,
`src/rank.rs`, `src/select/mod.rs`) into Lean 4, together with proofs about
the embedded operations.

Machine words of the `Block` type (an unsigned integer type of `W` bits) are
modelled as `Nat` values `< 2 ^ W`; `usize`/`u64` arithmetic is modelled as
`Nat` with explicit overflow checks where the Rust code has them.  Fallible
operations (slice indexing, `assert!`, arithmetic that can panic) return
`Option`, where `none` models a panic.

The repository's `block_type.rs` and `bit_vector.rs` modules are not present
in the sources; the definitions that come from them are modelled from the
specification and are marked `Modelled from the spec:` in their doc comments.
-/

set_option maxHeartbeats 1000000

namespace Succinct

/-! ## Word capability layer (spec §4.1)

`Modelled from the spec:` the `BlockType` trait lives in the missing
`block_type.rs`.  The spec requires `get_bits`/`set_bits`/`get_bit`/`set_bit`
on single words, with `set_bits(word, offset, len, value)` replacing exactly
`len` bits starting at `offset` and preserving the rest, and a bit numbering
that is consistent between the get/set pairs.  We fix the within-word
numbering with bit `0` the least significant bit; the get/set pairs are
mutually consistent, which is all the packed-vector claims depend on. -/

/-- Modelled from the spec: `BlockType::get_bits(word, offset, len)` extracts
the `len` bits of `word` starting at bit `offset`.  (`(w >>> off) % 2^len`.) -/
def getBitsW (w off len : ℕ) : ℕ :=
  (w / 2 ^ off) % 2 ^ len

/-- Modelled from the spec: `BlockType::set_bits(word, offset, len, value)`
replaces exactly the `len` bits of `word` starting at bit `offset` with the
low `len` bits of `value`, preserving all other bits. -/
def setBitsW (w off len v : ℕ) : ℕ :=
  w % 2 ^ off + (v % 2 ^ len) * 2 ^ off + (w / 2 ^ (off + len)) * 2 ^ (off + len)

/-- Modelled from the spec: `BlockType::get_bit(word, i)`. -/
def getBitW (w off : ℕ) : Bool :=
  w.testBit off

/-- Modelled from the spec: `BlockType::set_bit(word, i, bit)` sets bit `i`
and preserves all other bits. -/
def setBitW (w off : ℕ) (b : Bool) : ℕ :=
  setBitsW w off 1 (cond b 1 0)

/-- Models `count_ones()` on a `W`-bit word (the word is a `Nat < 2^W`). -/
def popcountW (W x : ℕ) : ℕ :=
  ((Finset.range W).filter (fun j => x.testBit j = true)).card

/-- The binary length of `x` as computed over its first `W` bit positions
(`⌊log2 x⌋ + 1` for `x ≥ 1`, `0` for `x = 0`; equal to `Nat.size x` whenever
`x < 2^W`). -/
def bitLength (W x : ℕ) : ℕ :=
  ((Finset.range W).filter (fun j => 2 ^ j ≤ x)).card

/-- Models `leading_zeros()` on a `W`-bit word `x < 2^W`:
`W` minus the bit length of `x`. -/
def leadingZeros (W x : ℕ) : ℕ :=
  W - bitLength W x

/-! ## `IntVec` (src/int_vec/mod.rs)

`IntVec<Block>` is a vector of `n_elements` integers of `element_bits` bits
each, packed into `W`-bit blocks.  The Rust type parameter `Block` is
modelled by passing the block width `W` (`Self::block_bits()`) explicitly to
each operation; the block values are `Nat`s kept `< 2 ^ W`.  Panics (failed
`assert!`, slice index out of bounds, `.expect` on overflow) are modelled by
`Option.none`.  The number of bits of `usize` on the modelled target is 64
(the `u64` sizing arithmetic of `compute_block_size` is checked against it
by `to_usize`). -/

def usizeBits : ℕ := 64

/-- `IntVec { blocks, n_elements, element_bits }` from src/int_vec/mod.rs. -/
structure IntVec where
  blocks : List ℕ
  n_elements : ℕ
  element_bits : ℕ
  deriving DecidableEq, Repr

/-- `Address { block_index, bit_offset }` from src/int_vec/mod.rs. -/
structure Address where
  block_index : ℕ
  bit_offset : ℕ
  deriving DecidableEq, Repr

namespace IntVec

/-- `IntVec::is_packed`: elements are laid out one per block. -/
def is_packed (W : ℕ) (iv : IntVec) : Bool :=
  iv.element_bits == W

/-- `IntVec::is_aligned`: elements never straddle a block boundary. -/
def is_aligned (W : ℕ) (iv : IntVec) : Bool :=
  W % iv.element_bits == 0

/-- `IntVec::compute_block_size`: number of blocks needed for `n_elements`
elements of `element_bits` bits, computed in 64-bit arithmetic with overflow
checks.  `none` models a `None` result (overflow) or the failed
`debug_assert!(block_bits >= element_bits)` which the doc comment of `new`
documents as a panic. -/
def compute_block_size (W element_bits n_elements : ℕ) : Option ℕ :=
  if W < element_bits then none
  else
    -- checked_mul in u64
    if n_elements * element_bits < 2 ^ 64 then
      let n_bits := n_elements * element_bits
      let result := n_bits / W + (if n_bits % W > 0 then 1 else 0)
      -- result.to_usize()
      if result < 2 ^ usizeBits then some result else none
    else none

/-- `IntVec::element_address`: the block index and bit offset of element
`element_index`; `none` models the failed
`assert!(element_index < self.n_elements)`. -/
def element_address (W : ℕ) (iv : IntVec) (element_index : ℕ) : Option Address :=
  if element_index < iv.n_elements then
    if iv.is_packed W then
      some ⟨element_index, 0⟩
    else
      let bit_index := element_index * iv.element_bits
      some ⟨bit_index / W, bit_index % W⟩
  else none

/-- `IntVec::bit_address`: block index and bit offset of a flat bit index.
There is deliberately no bounds check here (the source has a TODO noting
that the slice may have extra space). -/
def bit_address (W bit_index : ℕ) : Address :=
  ⟨bit_index / W, bit_index % W⟩

/-- `IntVec::new(element_bits, n_elements)`: `compute_block_size` zero-filled
blocks; `none` models the `.expect("IntVec: size overflow")` panic. -/
def new (W element_bits n_elements : ℕ) : Option IntVec :=
  (compute_block_size W element_bits n_elements).map fun block_size =>
    ⟨List.replicate block_size 0, n_elements, element_bits⟩

/-- `IntVec::len`. -/
def len (iv : IntVec) : ℕ := iv.n_elements

/-- `IntVec::is_empty`. -/
def is_empty (iv : IntVec) : Bool := iv.len == 0

/-- `IntVec::get_bit`: no check against `n_elements`; faults only through
the slice access `self.blocks[address.block_index]`. -/
def get_bit (W : ℕ) (iv : IntVec) (bit_index : ℕ) : Option Bool :=
  let address := bit_address W bit_index
  (iv.blocks[address.block_index]?).map fun block =>
    getBitW block address.bit_offset

/-- `IntVec::set_bit`: read-modify-write of one block; no check against
`n_elements`. -/
def set_bit (W : ℕ) (iv : IntVec) (bit_index : ℕ) (bit_value : Bool) : Option IntVec :=
  let address := bit_address W bit_index
  (iv.blocks[address.block_index]?).map fun old_block =>
    let new_block := setBitW old_block address.bit_offset bit_value
    { iv with blocks := iv.blocks.set address.block_index new_block }

/-- `IntVec::get(element_index)` with its three paths: packed (`k = W`),
single-bit (`k = 1`), and the general path with a possible straddle across
two blocks. -/
def get (W : ℕ) (iv : IntVec) (element_index : ℕ) : Option ℕ :=
  if iv.is_packed W then
    iv.blocks[element_index]?
  else if iv.element_bits = 1 then
    (iv.get_bit W element_index).map fun b => cond b 1 0
  else
    (iv.element_address W element_index).bind fun address =>
      let element_bits := iv.element_bits
      let margin := W - address.bit_offset
      if margin ≥ element_bits then
        (iv.blocks[address.block_index]?).map fun block =>
          getBitsW block address.bit_offset element_bits
      else
        let extra := element_bits - margin
        (iv.blocks[address.block_index]?).bind fun block1 =>
          (iv.blocks[address.block_index + 1]?).map fun block2 =>
            let high_bits := getBitsW block1 address.bit_offset margin
            let low_bits := getBitsW block2 0 extra
            (high_bits <<< extra) ||| low_bits

/-- `IntVec::set(element_index, element_value)`, mirroring `get`'s three
paths with read-modify-write per affected block.  The
`debug_assert!(element_value < 1 << element_bits)` is compiled out of
release builds (spec §7: checked only in debug builds), so an overflowing
value is not a modelled fault. -/
def set (W : ℕ) (iv : IntVec) (element_index element_value : ℕ) : Option IntVec :=
  if iv.is_packed W then
    (iv.blocks[element_index]?).map fun _ =>
      { iv with blocks := iv.blocks.set element_index element_value }
  else if iv.element_bits = 1 then
    iv.set_bit W element_index (element_value == 1)
  else
    (iv.element_address W element_index).bind fun address =>
      let element_bits := iv.element_bits
      let margin := W - address.bit_offset
      if margin ≥ element_bits then
        (iv.blocks[address.block_index]?).map fun old_block =>
          let new_block := setBitsW old_block address.bit_offset element_bits element_value
          { iv with blocks := iv.blocks.set address.block_index new_block }
      else
        let extra := element_bits - margin
        (iv.blocks[address.block_index]?).bind fun old_block1 =>
          (iv.blocks[address.block_index + 1]?).map fun old_block2 =>
            let high_bits := element_value >>> extra
            let new_block1 := setBitsW old_block1 address.bit_offset margin high_bits
            let new_block2 := setBitsW old_block2 0 extra element_value
            let blocks1 := iv.blocks.set address.block_index new_block1
            let blocks2 := blocks1.set (address.block_index + 1) new_block2
            { iv with blocks := blocks2 }

/-- `IntVec::iter().collect()`: the decoded elements in index order
(`Iter` yields `get(0), get(1), …`); `none` if any `get` faults. -/
def iterList (W : ℕ) (iv : IntVec) : Option (List ℕ) :=
  (List.range iv.n_elements).mapM (iv.get W)

/-- The `fmt::Debug` rendering of an `IntVec` (src/int_vec/mod.rs,
`impl fmt::Debug for IntVec`): the element width, then every decoded
element followed by `", "`. -/
def debugFmt (W : ℕ) (iv : IntVec) : Option String :=
  (iv.iterList W).map fun elements =>
    "IntVec \x7b element_bits: " ++ toString iv.element_bits ++ ", elements: \x7b "
      ++ String.join (elements.map fun e => toString e ++ ", ") ++ "\x7d \x7d"

/-- Applying a sequence of `set` calls in order. -/
def applySets (W : ℕ) (iv : IntVec) : List (ℕ × ℕ) → Option IntVec
  | [] => some iv
  | op :: rest => (iv.set W op.1 op.2).bind fun iv2 => applySets W iv2 rest

/-- The last value a sequence of `(index, value)` `set` calls assigns to
`index = i`, if any. -/
def lastSet (ops : List (ℕ × ℕ)) (i : ℕ) : Option ℕ :=
  (ops.reverse.find? (fun op => op.1 == i)).map (·.2)

/-- Well-formedness invariant of a constructed `IntVec`: a valid element
width, exactly `ceil(n·k/W)` blocks, and every block a `W`-bit value. -/
def WF (W : ℕ) (iv : IntVec) : Prop :=
  1 ≤ iv.element_bits ∧ iv.element_bits ≤ W ∧
    iv.blocks.length = (iv.n_elements * iv.element_bits + W - 1) / W ∧
    ∀ b ∈ iv.blocks, b < 2 ^ W

/-- Reading a bit range out of one block of a block list; the common shape of
all the reads `IntVec::get` performs. -/
def readRange (blocks : List ℕ) (β o l : ℕ) : Option ℕ :=
  (blocks[β]?).map fun w => getBitsW w o l


end IntVec

/-! ## `RankSupport` (src/rank.rs)

The rank structure is built over any bit-addressable source (`BitVector`
trait) and stores its two metadata tables in push-built `IntVec<u64>`s.
The `bit_vector` module and the push-based `IntVec` interface used by
src/rank.rs are not under src/, so they are modelled from the spec. -/

/-- Modelled from the spec: the bit-addressable source interface consumed by
the rank index (spec §4.3/§6): total bit length `bit_len`, word-addressable
length `block_len`, and raw access `get_block i` to word `i`. -/
structure BitSource where
  bit_len : ℕ
  block_len : ℕ
  get_block : ℕ → ℕ

/-- Modelled from the spec: the `BitVector` view of a slice of `W`-bit
words (the rank test builds its index over `&*vec`): `bit_len = len · W`,
`get_block i = slice[i]`. -/
def sliceSource (W : ℕ) (l : List ℕ) : BitSource :=
  ⟨l.length * W, l.length, fun i => l.getD i 0⟩

/-- Well-formedness of a bit-addressable source: every bit lives in a block
and blocks are `W`-bit values. -/
def BitSource.WF (W : ℕ) (src : BitSource) : Prop :=
  src.bit_len ≤ src.block_len * W ∧ ∀ i, i < src.block_len → src.get_block i < 2 ^ W

/-- Modelled from the spec: the bit of the source at flat position `p`.
Bit positions count from the most significant bit of each block (`rank`'s
shift-right-then-popcount convention, fixed by the §8 test vectors). -/
def srcBit (W : ℕ) (src : BitSource) (p : ℕ) : Bool :=
  (src.get_block (p / W)).testBit (W - 1 - p % W)

/-- The number of set source bits at flat positions in `[a, b)`. -/
def countOnes (W : ℕ) (src : BitSource) (a b : ℕ) : ℕ :=
  ((Finset.Ico a b).filter (fun p => srcBit W src p = true)).card

/-- The reference meaning of `rank(position)` (spec §4.3): the number of set
bits at positions in `[0, position]`, inclusive of the endpoint. -/
def countOnesInclusive (W : ℕ) (src : BitSource) (position : ℕ) : ℕ :=
  countOnes W src 0 (position + 1)

/-- The total popcount of source blocks `[0, m)`. -/
def wordSum (W : ℕ) (src : BitSource) (m : ℕ) : ℕ :=
  ∑ t ∈ Finset.range m, popcountW W (src.get_block t)

/-- Modelled from the spec: the push-built `IntVec<u64>` used for the two
rank metadata tables (src/rank.rs uses `IntVecBuilder`/`push`/`get`, an
`IntVec` interface not under src/).  A pushed value is stored in an
`element_bits`-wide slot, so only its low `element_bits` bits are kept
(spec §4.1: `set_bits` stores exactly `len` bits). -/
structure IntVec64 where
  element_bits : ℕ
  data : List ℕ
  deriving DecidableEq, Repr

/-- Modelled from the spec: appending one element to a push-built table. -/
def IntVec64.push (t : IntVec64) (v : ℕ) : IntVec64 :=
  ⟨t.element_bits, t.data ++ [v % 2 ^ t.element_bits]⟩

/-- Modelled from the spec: reading a table element. -/
def IntVec64.get (t : IntVec64) (i : ℕ) : ℕ :=
  t.data.getD i 0

/-- `ceil_log2` from src/rank.rs: `0` for values `≤ 1`, otherwise
`nbits - leading_zeros(block - 1)` where `nbits` is the width of the
argument type (`u64` at both use sites on a 64-bit target). -/
def ceil_log2 (nbits block : ℕ) : ℕ :=
  if block ≤ 1 then 0 else nbits - leadingZeros nbits (block - 1)

/-- `RankSupport` from src/rank.rs.  The Rust struct additionally borrows
the bit store (`bit_store: &'a BV` with `marker: PhantomData<Block>`); the
borrow is modelled by passing the source to `rank` explicitly. -/
structure RankSupport where
  large_block_size : ℕ
  large_block_ranks : IntVec64
  small_block_ranks : IntVec64
  deriving DecidableEq, Repr

/-- The running state of the construction scan of `RankSupport::new`. -/
structure RankScanState where
  large_block_ranks : IntVec64
  small_block_ranks : IntVec64
  current_rank : ℕ
  last_large_rank : ℕ
  small_block_index : ℕ
  deriving DecidableEq, Repr

/-- One iteration of the construction scan of `RankSupport::new`
(the body of `for i in 0 .. bits.block_len()`). -/
def rankScanStep (W small_per_large : ℕ) (src : BitSource)
    (st : RankScanState) (i : ℕ) : RankScanState :=
  let st1 := if st.small_block_index = 0 then
      { st with
          large_block_ranks := st.large_block_ranks.push st.current_rank,
          last_large_rank := st.current_rank }
    else st
  let excess_rank := st1.current_rank - st1.last_large_rank
  let st2 := { st1 with
      small_block_ranks := st1.small_block_ranks.push excess_rank }
  let st3 := { st2 with
      current_rank := st2.current_rank + popcountW W (src.get_block i),
      small_block_index := st2.small_block_index + 1 }
  if st3.small_block_index = small_per_large then
    { st3 with small_block_index := 0 }
  else st3

/-- `RankSupport::new` from src/rank.rs.  `none` models the `u64` division
by zero in `n / large_block_size`, which panics whenever
`large_block_size = 0` (that is, whenever `lg_n = 0`, i.e. `bit_len ≤ 1`).
The two `.capacity(..)` hints only preallocate and do not affect the
contents. -/
def RankSupport.new (W : ℕ) (bits : BitSource) : Option RankSupport :=
  let n := bits.bit_len
  let lg_n := ceil_log2 64 n
  let lg2_n := lg_n * lg_n
  let small_block_size := W
  let small_per_large := (lg2_n + small_block_size - 1) / small_block_size
  let large_block_size := small_block_size * small_per_large
  if large_block_size = 0 then none
  else
    let large_meta_size := lg_n
    let small_meta_size := ceil_log2 64 large_block_size
    let init : RankScanState := ⟨⟨large_meta_size, []⟩, ⟨small_meta_size, []⟩, 0, 0, 0⟩
    let st := (List.range bits.block_len).foldl (rankScanStep W small_per_large bits) init
    some ⟨large_block_size,
      st.large_block_ranks.push st.current_rank,
      st.small_block_ranks.push (st.current_rank - st.last_large_rank)⟩

/-- `Rank::rank` for `RankSupport` from src/rank.rs: two table lookups plus
the popcount of the block shifted right by `W - bit_offset - 1` (keeping
the bits at MSB-first positions `≤ bit_offset`). -/
def RankSupport.rank (W : ℕ) (bits : BitSource) (r : RankSupport) (position : ℕ) : ℕ :=
  let small_block_size := W
  let large_block := position / r.large_block_size
  let small_block := position / small_block_size
  let bit_offset := position % small_block_size
  let large_rank := r.large_block_ranks.get large_block
  let small_rank := r.small_block_ranks.get small_block
  let bits_rank :=
    popcountW W ((bits.get_block small_block) >>> (small_block_size - bit_offset - 1))
  large_rank + small_rank + bits_rank

/-- The 1024-word test store of src/rank.rs:
`vec![0b10000000000000001110000000000000u32; 1024]`. -/
def rankTestStore : List ℕ :=
  List.replicate 1024 0b10000000000000001110000000000000

/-! ### Word-level lemmas -/

theorem setBitsW_testBit (w off len v t : ℕ) :
    (setBitsW w off len v).testBit t =
      if off ≤ t ∧ t < off + len then (v % 2 ^ len).testBit (t - off)
      else w.testBit t := by
  unfold setBitsW
  have hvlen : v % 2 ^ len < 2 ^ len := Nat.mod_lt _ (Nat.two_pow_pos len)
  have hkey : w % 2 ^ off + (v % 2 ^ len) * 2 ^ off
      + w / 2 ^ (off + len) * 2 ^ (off + len)
      = 2 ^ (off + len) * (w / 2 ^ (off + len))
        + (2 ^ off * (v % 2 ^ len) + w % 2 ^ off) := by ring
  have hlow : 2 ^ off * (v % 2 ^ len) + w % 2 ^ off < 2 ^ (off + len) := by
    have h1 : w % 2 ^ off < 2 ^ off := Nat.mod_lt _ (Nat.two_pow_pos off)
    have h2 : 2 ^ off * (v % 2 ^ len) + w % 2 ^ off
        < 2 ^ off * (v % 2 ^ len) + 2 ^ off := by omega
    have h3 : 2 ^ off * (v % 2 ^ len) + 2 ^ off ≤ 2 ^ off * 2 ^ len := by
      have := Nat.succ_le_of_lt hvlen
      calc 2 ^ off * (v % 2 ^ len) + 2 ^ off
          = 2 ^ off * (v % 2 ^ len + 1) := by ring
        _ ≤ 2 ^ off * 2 ^ len := Nat.mul_le_mul_left _ this
    calc 2 ^ off * (v % 2 ^ len) + w % 2 ^ off
        < 2 ^ off * (v % 2 ^ len) + 2 ^ off := h2
      _ ≤ 2 ^ off * 2 ^ len := h3
      _ = 2 ^ (off + len) := (pow_add 2 off len).symm
  rw [hkey, Nat.testBit_mul_pow_two_add _ hlow]
  have hmod : w % 2 ^ off < 2 ^ off := Nat.mod_lt _ (Nat.two_pow_pos off)
  rcases Nat.lt_or_ge t off with h1 | h1
  · rw [if_pos (by omega : t < off + len), Nat.testBit_mul_pow_two_add _ hmod,
      if_pos h1, if_neg (by omega : ¬ (off ≤ t ∧ t < off + len))]
    simp [Nat.testBit_mod_two_pow, h1]
  · rcases Nat.lt_or_ge t (off + len) with h2 | h2
    · rw [if_pos h2, Nat.testBit_mul_pow_two_add _ hmod,
        if_neg (by omega : ¬ t < off), if_pos (⟨h1, h2⟩ : off ≤ t ∧ t < off + len)]
    · rw [if_neg (by omega : ¬ t < off + len),
        if_neg (by omega : ¬ (off ≤ t ∧ t < off + len))]
      have hdiv : w / 2 ^ (off + len) = w >>> (off + len) := by
        simp [Nat.shiftRight_eq_div_pow]
      rw [hdiv, Nat.testBit_shiftRight]
      congr 1
      omega

theorem getBitsW_testBit (w off len t : ℕ) :
    (getBitsW w off len).testBit t = (decide (t < len) && w.testBit (off + t)) := by
  unfold getBitsW
  rw [show w / 2 ^ off = w >>> off by simp [Nat.shiftRight_eq_div_pow]]
  simp [Nat.testBit_mod_two_pow]

/-- Reading back exactly the bits just written. -/
theorem getBitsW_setBitsW_self (w off len v : ℕ) :
    getBitsW (setBitsW w off len v) off len = v % 2 ^ len := by
  apply Nat.eq_of_testBit_eq
  intro t
  rw [getBitsW_testBit]
  rcases Nat.lt_or_ge t len with h | h
  · rw [setBitsW_testBit,
      if_pos (show off ≤ off + t ∧ off + t < off + len by omega)]
    have ht : off + t - off = t := by omega
    rw [ht]
    simp [h]
  · have hfalse : (v % 2 ^ len).testBit t = false :=
      Nat.testBit_lt_two_pow (lt_of_lt_of_le (Nat.mod_lt _ (Nat.two_pow_pos len))
        (Nat.pow_le_pow_right (by norm_num) h))
    simp [hfalse, Nat.not_lt.mpr h]

/-- Bits outside the written range are preserved. -/
theorem testBit_setBitsW_of_disjoint (w off len v t : ℕ)
    (h : t < off ∨ off + len ≤ t) :
    (setBitsW w off len v).testBit t = w.testBit t := by
  rw [setBitsW_testBit, if_neg (by omega)]

/-- Reading a range disjoint from the written range is unchanged. -/
theorem getBitsW_setBitsW_of_disjoint (w off len v off' len' : ℕ)
    (h : off' + len' ≤ off ∨ off + len ≤ off') :
    getBitsW (setBitsW w off len v) off' len' = getBitsW w off' len' := by
  apply Nat.eq_of_testBit_eq
  intro t
  rw [getBitsW_testBit, getBitsW_testBit]
  rcases Nat.lt_or_ge t len' with hlt | hge
  · rw [testBit_setBitsW_of_disjoint]
    omega
  · simp [Nat.not_lt.mpr hge]

/-- `set_bits` keeps a `W`-bit word within `W` bits when the range fits. -/
theorem setBitsW_lt (w off len v W : ℕ) (hw : w < 2 ^ W) (hr : off + len ≤ W) :
    setBitsW w off len v < 2 ^ W := by
  unfold setBitsW
  have hlow : w % 2 ^ off + (v % 2 ^ len) * 2 ^ off < 2 ^ (off + len) := by
    have h1 : w % 2 ^ off < 2 ^ off := Nat.mod_lt _ (Nat.two_pow_pos off)
    have h2 : (v % 2 ^ len) * 2 ^ off ≤ (2 ^ len - 1) * 2 ^ off :=
      Nat.mul_le_mul_right _ (by
        have := Nat.mod_lt v (Nat.two_pow_pos len)
        omega)
    have h3 : (2 ^ len - 1) * 2 ^ off + 2 ^ off = 2 ^ (off + len) := by
      have hp : 0 < 2 ^ len := Nat.two_pow_pos len
      have : (2 ^ len - 1) * 2 ^ off + 2 ^ off = 2 ^ len * 2 ^ off := by
        cases' Nat.exists_eq_add_of_lt hp with m hm
        rw [show 2 ^ len - 1 = m by omega, show (2 : ℕ) ^ len = m + 1 by omega]
        ring
      rw [this, ← pow_add, Nat.add_comm]
    omega
  have hdiv : w / 2 ^ (off + len) < 2 ^ (W - (off + len)) := by
    rw [Nat.div_lt_iff_lt_mul (Nat.two_pow_pos (off + len)), ← pow_add]
    have : W - (off + len) + (off + len) = W := by omega
    rw [this]
    exact hw
  calc w % 2 ^ off + (v % 2 ^ len) * 2 ^ off + w / 2 ^ (off + len) * 2 ^ (off + len)
      < 2 ^ (off + len) + w / 2 ^ (off + len) * 2 ^ (off + len) := by omega
    _ = (w / 2 ^ (off + len) + 1) * 2 ^ (off + len) := by ring
    _ ≤ 2 ^ (W - (off + len)) * 2 ^ (off + len) :=
        Nat.mul_le_mul_right _ (by omega)
    _ = 2 ^ W := by
        rw [← pow_add]
        congr 1
        omega

theorem getBitsW_lt (w off len : ℕ) : getBitsW w off len < 2 ^ len :=
  Nat.mod_lt _ (Nat.two_pow_pos len)

theorem getBitsW_eq_of_lt (w len : ℕ) (hw : w < 2 ^ len) : getBitsW w 0 len = w := by
  unfold getBitsW
  simp [Nat.mod_eq_of_lt hw]

/-- Recombining a straddling read: `(high <<< extra) ||| low = high * 2^extra + low`
when `low < 2^extra`. -/
theorem shiftLeft_lor_eq_add (high low extra : ℕ) (h : low < 2 ^ extra) :
    (high <<< extra) ||| low = high * 2 ^ extra + low := by
  rw [Nat.shiftLeft_eq, Nat.mul_comm high (2 ^ extra)]
  exact (Nat.mul_add_lt_is_or h high).symm

theorem popcountW_le (W x : ℕ) : popcountW W x ≤ W := by
  unfold popcountW
  calc ((Finset.range W).filter _).card ≤ (Finset.range W).card :=
        Finset.card_filter_le _ _
    _ = W := Finset.card_range W

namespace IntVec

/-! ### Arithmetic helpers for element addressing -/

theorem ceil_div_mul_ge (a W : ℕ) (hW : 0 < W) : a ≤ (a + W - 1) / W * W := by
  have e := Nat.div_add_mod (a + W - 1) W
  have m := Nat.mod_lt (a + W - 1) hW
  have : (a + W - 1) / W * W = W * ((a + W - 1) / W) := Nat.mul_comm _ _
  omega

theorem flat_lt {i n : ℕ} (k : ℕ) (h : i < n) : i * k + k ≤ n * k := by
  have : (i + 1) * k ≤ n * k := Nat.mul_le_mul_right k h
  have e : (i + 1) * k = i * k + k := by ring
  omega

theorem block_index_lt {W L a : ℕ} (hW : 0 < W) (h : a < L * W) : a / W < L := by
  have e := Nat.div_add_mod a W
  have m := Nat.mod_lt a hW
  have h1 : W * (a / W) < W * L := by
    have : L * W = W * L := Nat.mul_comm _ _
    omega
  exact Nat.lt_of_mul_lt_mul_left h1

theorem exists_block {l : List ℕ} {b : ℕ} (h : b < l.length) :
    ∃ w, l[b]? = some w ∧ w ∈ l := by
  cases hb : l[b]? with
  | none => exact absurd (List.getElem?_eq_none_iff.mp hb) (by omega)
  | some w => exact ⟨w, rfl, List.getElem?_mem hb⟩

/-- Overwriting the bit range `[oi, oi+len)` of block `bi` does not change a
read whose flat bit range is disjoint from the flat range of the write. -/
theorem readRange_set_flat (W : ℕ) (blocks : List ℕ) (bi oi len v β o l old : ℕ)
    (hold : blocks[bi]? = some old)
    (h : W * β + o + l ≤ W * bi + oi ∨ W * bi + oi + len ≤ W * β + o) :
    readRange (blocks.set bi (setBitsW old oi len v)) β o l = readRange blocks β o l := by
  by_cases hβ : β = bi
  · subst hβ
    have hlt : β < blocks.length := by
      rcases List.getElem?_eq_some_iff.mp hold with ⟨hh, _⟩
      exact hh
    unfold readRange
    rw [List.getElem?_set_self hlt, hold]
    simp only [Option.map_some']
    congr 1
    exact getBitsW_setBitsW_of_disjoint _ _ _ _ _ _ (by omega)
  · unfold readRange
    rw [List.getElem?_set_ne (fun hc => hβ hc.symm)]

theorem is_packed_false {W : ℕ} {iv : IntVec} (h : iv.element_bits ≠ W) :
    iv.is_packed W = false := by
  unfold IntVec.is_packed
  simp [h]

/-- `get` in the general path (`k ≠ 1`, `k ≠ W`), written with `readRange`. -/
theorem get_general_eq (W : ℕ) (iv : IntVec) (j : ℕ)
    (hk1 : iv.element_bits ≠ 1) (hkW : iv.element_bits ≠ W) (hj : j < iv.n_elements) :
    iv.get W j =
      (if iv.element_bits ≤ W - j * iv.element_bits % W then
        readRange iv.blocks (j * iv.element_bits / W) (j * iv.element_bits % W)
          iv.element_bits
      else
        (readRange iv.blocks (j * iv.element_bits / W) (j * iv.element_bits % W)
            (W - j * iv.element_bits % W)).bind fun high_bits =>
          (readRange iv.blocks (j * iv.element_bits / W + 1) 0
              (iv.element_bits - (W - j * iv.element_bits % W))).map fun low_bits =>
            (high_bits <<< (iv.element_bits - (W - j * iv.element_bits % W))) ||| low_bits) := by
  have hp : iv.is_packed W = false := is_packed_false hkW
  by_cases hm : iv.element_bits ≤ W - j * iv.element_bits % W
  · simp [IntVec.get, IntVec.element_address, hp, hk1, hj, hm, readRange]
  · simp only [IntVec.get, IntVec.element_address, hp, Bool.false_eq_true, if_false,
      hk1, hj, if_true, ge_iff_le, readRange, Option.some_bind, hm, Option.bind_map]
    cases iv.blocks[j * iv.element_bits / W]? with
    | none => rfl
    | some b1 =>
      cases iv.blocks[j * iv.element_bits / W + 1]? with
      | none => rfl
      | some b2 => rfl

/-- `get` at an index `≥ n_elements` in the general path faults. -/
theorem get_general_none (W : ℕ) (iv : IntVec) (j : ℕ)
    (hk1 : iv.element_bits ≠ 1) (hkW : iv.element_bits ≠ W) (hj : iv.n_elements ≤ j) :
    iv.get W j = none := by
  have hp : iv.is_packed W = false := is_packed_false hkW
  simp only [IntVec.get, IntVec.element_address, hp, Bool.false_eq_true, if_false,
    hk1, if_true]
  rw [if_neg (by omega)]
  rfl

/-- `set` at an index `≥ n_elements` in the general path faults. -/
theorem set_general_none (W : ℕ) (iv : IntVec) (j v : ℕ)
    (hk1 : iv.element_bits ≠ 1) (hkW : iv.element_bits ≠ W) (hj : iv.n_elements ≤ j) :
    iv.set W j v = none := by
  have hp : iv.is_packed W = false := is_packed_false hkW
  simp only [IntVec.set, IntVec.element_address, hp, Bool.false_eq_true, if_false,
    hk1, if_true]
  rw [if_neg (by omega)]
  rfl

/-- `set` in the general path, written as explicit block updates. -/
theorem set_general_eq (W : ℕ) (iv : IntVec) (i v : ℕ)
    (hk1 : iv.element_bits ≠ 1) (hkW : iv.element_bits ≠ W) (hi : i < iv.n_elements) :
    iv.set W i v =
      (if iv.element_bits ≤ W - i * iv.element_bits % W then
        (iv.blocks[i * iv.element_bits / W]?).map fun old =>
          ⟨iv.blocks.set (i * iv.element_bits / W)
              (setBitsW old (i * iv.element_bits % W) iv.element_bits v),
            iv.n_elements, iv.element_bits⟩
      else
        (iv.blocks[i * iv.element_bits / W]?).bind fun old1 =>
          (iv.blocks[i * iv.element_bits / W + 1]?).map fun old2 =>
            ⟨(iv.blocks.set (i * iv.element_bits / W)
                  (setBitsW old1 (i * iv.element_bits % W) (W - i * iv.element_bits % W)
                    (v >>> (iv.element_bits - (W - i * iv.element_bits % W))))).set
                (i * iv.element_bits / W + 1)
                (setBitsW old2 0 (iv.element_bits - (W - i * iv.element_bits % W)) v),
              iv.n_elements, iv.element_bits⟩) := by
  have hp : iv.is_packed W = false := is_packed_false hkW
  by_cases hm : iv.element_bits ≤ W - i * iv.element_bits % W
  · simp [IntVec.set, IntVec.element_address, hp, hk1, hi, hm]
  · simp only [IntVec.set, IntVec.element_address, hp, Bool.false_eq_true, if_false,
      hk1, hi, if_true, ge_iff_le, Option.some_bind, hm]

/-- `set` followed by `get` in the general path (`2 ≤ k < W`): the set
succeeds, returns the stored value at the same index, and leaves every other
element unchanged. -/
theorem set_general_spec (W : ℕ) (iv : IntVec) (i v : ℕ)
    (hWF : iv.WF W) (hk2 : 2 ≤ iv.element_bits) (hkW : iv.element_bits < W)
    (hi : i < iv.n_elements) (hv : v < 2 ^ iv.element_bits) :
    ∃ iv', iv.set W i v = some iv' ∧ iv'.WF W ∧
      iv'.n_elements = iv.n_elements ∧ iv'.element_bits = iv.element_bits ∧
      iv'.get W i = some v ∧
      ∀ j, j ≠ i → iv'.get W j = iv.get W j := by
  obtain ⟨blocks, n, k⟩ := iv
  simp only [IntVec.WF] at hWF
  simp only at hWF hk2 hkW hi hv ⊢
  obtain ⟨hk1, hkle, hlen, hbound⟩ := hWF
  have hW : 0 < W := by omega
  have hkne1 : k ≠ 1 := by omega
  have hkneW : k ≠ W := by omega
  have e_i : W * (i * k / W) + i * k % W = i * k := Nat.div_add_mod _ _
  have hoi : i * k % W < W := Nat.mod_lt _ hW
  have hceil : n * k ≤ blocks.length * W := by
    rw [hlen]
    exact ceil_div_mul_ge (n * k) W hW
  have hfit : i * k + k ≤ n * k := flat_lt _ hi
  have hik_lt : i * k < blocks.length * W := by omega
  have hbi : i * k / W < blocks.length := block_index_lt hW hik_lt
  by_cases hm : k ≤ W - i * k % W
  · -- no straddle: a single block is rewritten
    obtain ⟨old, hold, holdmem⟩ := exists_block hbi
    refine ⟨⟨blocks.set (i * k / W) (setBitsW old (i * k % W) k v), n, k⟩,
      ?_, ?_, rfl, rfl, ?_, ?_⟩
    · rw [set_general_eq W ⟨blocks, n, k⟩ i v hkne1 hkneW hi]
      dsimp only
      rw [if_pos hm, hold]
      rfl
    · refine ⟨hk1, hkle, ?_, ?_⟩
      · dsimp only
        rw [List.length_set]
        exact hlen
      · intro b hb
        rcases List.mem_or_eq_of_mem_set hb with h | h
        · exact hbound b h
        · subst h
          exact setBitsW_lt _ _ _ _ _ (hbound old holdmem) (by omega)
    · rw [get_general_eq W _ i hkne1 hkneW hi]
      dsimp only
      rw [if_pos hm]
      unfold readRange
      rw [List.getElem?_set_self (by simpa using hbi)]
      simp only [Option.map_some']
      rw [getBitsW_setBitsW_self, Nat.mod_eq_of_lt hv]
    · intro j hj
      have hpres : ∀ β o l, (W * β + o + l ≤ i * k ∨ i * k + k ≤ W * β + o) →
          readRange (blocks.set (i * k / W) (setBitsW old (i * k % W) k v)) β o l
            = readRange blocks β o l := by
        intro β o l hflat
        exact readRange_set_flat W blocks (i * k / W) (i * k % W) k v β o l old hold
          (by omega)
      have hflat_ne : ∀ a b : ℕ, a ≠ b → a * k + k ≤ b * k ∨ b * k + k ≤ a * k := by
        intro a b hab
        rcases Nat.lt_or_ge a b with h | h
        · exact Or.inl (flat_lt _ h)
        · exact Or.inr (flat_lt _ (by omega))
      by_cases hjn : j < n
      · have e_j : W * (j * k / W) + j * k % W = j * k := Nat.div_add_mod _ _
        have hoj : j * k % W < W := Nat.mod_lt _ hW
        have hfl := hflat_ne j i hj
        rw [get_general_eq W _ j hkne1 hkneW hjn, get_general_eq W _ j hkne1 hkneW hjn]
        dsimp only
        by_cases hjm : k ≤ W - j * k % W
        · rw [if_pos hjm, if_pos hjm, hpres _ _ _ (by omega)]
        · rw [if_neg hjm, if_neg hjm]
          have hsuc : W * (j * k / W + 1) = W * (j * k / W) + W := Nat.mul_succ W _
          rw [hpres _ _ _ (by omega), hpres _ _ _ (by omega)]
      · rw [get_general_none W _ j hkne1 hkneW (show n ≤ j by omega),
          get_general_none W _ j hkne1 hkneW (show n ≤ j by omega)]
  · -- straddle: two adjacent blocks are rewritten
    have hstrad : W < i * k % W + k := by omega
    have hsuci : W * (i * k / W + 1) = W * (i * k / W) + W := Nat.mul_succ W _
    have hbi1 : i * k / W + 1 < blocks.length := by
      have h2 : W * blocks.length = blocks.length * W := Nat.mul_comm _ _
      have h1 : W * (i * k / W + 1) < W * blocks.length := by omega
      exact Nat.lt_of_mul_lt_mul_left h1
    obtain ⟨old1, hold1, hold1mem⟩ := exists_block hbi
    obtain ⟨old2, hold2, hold2mem⟩ := exists_block hbi1
    have hold2' : (blocks.set (i * k / W)
        (setBitsW old1 (i * k % W) (W - i * k % W) (v >>> (k - (W - i * k % W)))))[
          i * k / W + 1]? = some old2 := by
      rw [List.getElem?_set_ne (by omega)]
      exact hold2
    refine ⟨⟨(blocks.set (i * k / W)
        (setBitsW old1 (i * k % W) (W - i * k % W) (v >>> (k - (W - i * k % W))))).set
          (i * k / W + 1) (setBitsW old2 0 (k - (W - i * k % W)) v), n, k⟩,
      ?_, ?_, rfl, rfl, ?_, ?_⟩
    · rw [set_general_eq W ⟨blocks, n, k⟩ i v hkne1 hkneW hi]
      dsimp only
      rw [if_neg hm, hold1, hold2]
      rfl
    · refine ⟨hk1, hkle, ?_, ?_⟩
      · dsimp only
        rw [List.length_set, List.length_set]
        exact hlen
      · intro b hb
        rcases List.mem_or_eq_of_mem_set hb with h | h
        · rcases List.mem_or_eq_of_mem_set h with h2 | h2
          · exact hbound b h2
          · subst h2
            exact setBitsW_lt _ _ _ _ _ (hbound old1 hold1mem) (by omega)
        · subst h
          exact setBitsW_lt _ _ _ _ _ (hbound old2 hold2mem) (by omega)
    · rw [get_general_eq W _ i hkne1 hkneW hi]
      dsimp only
      rw [if_neg hm]
      unfold readRange
      rw [List.getElem?_set_ne (by omega), List.getElem?_set_self (by simpa using hbi)]
      rw [List.getElem?_set_self (by simpa using hbi1)]
      simp only [Option.map_some', Option.some_bind]
      rw [getBitsW_setBitsW_self, getBitsW_setBitsW_self]
      have hsplit : (W - i * k % W) + (k - (W - i * k % W)) = k := by omega
      have hhigh : v >>> (k - (W - i * k % W)) < 2 ^ (W - i * k % W) := by
        rw [Nat.shiftRight_eq_div_pow]
        rw [Nat.div_lt_iff_lt_mul (Nat.two_pow_pos _), ← pow_add]
        rw [show W - i * k % W + (k - (W - i * k % W)) = k by omega]
        exact hv
      rw [Nat.mod_eq_of_lt hhigh]
      rw [shiftLeft_lor_eq_add _ _ _ (Nat.mod_lt _ (Nat.two_pow_pos _))]
      rw [Nat.shiftRight_eq_div_pow]
      congr 1
      have e := Nat.div_add_mod v (2 ^ (k - (W - i * k % W)))
      have hcm : v / 2 ^ (k - (W - i * k % W)) * 2 ^ (k - (W - i * k % W))
          = 2 ^ (k - (W - i * k % W)) * (v / 2 ^ (k - (W - i * k % W))) :=
        Nat.mul_comm _ _
      omega
    · intro j hj
      have hpres : ∀ β o l, (W * β + o + l ≤ i * k ∨ i * k + k ≤ W * β + o) →
          readRange ((blocks.set (i * k / W)
              (setBitsW old1 (i * k % W) (W - i * k % W)
                (v >>> (k - (W - i * k % W))))).set
            (i * k / W + 1) (setBitsW old2 0 (k - (W - i * k % W)) v)) β o l
            = readRange blocks β o l := by
        intro β o l hflat
        rw [readRange_set_flat W _ (i * k / W + 1) 0 (k - (W - i * k % W)) v β o l old2
            hold2' (by omega)]
        exact readRange_set_flat W blocks (i * k / W) (i * k % W) (W - i * k % W)
          (v >>> (k - (W - i * k % W))) β o l old1 hold1 (by omega)
      have hflat_ne : ∀ a b : ℕ, a ≠ b → a * k + k ≤ b * k ∨ b * k + k ≤ a * k := by
        intro a b hab
        rcases Nat.lt_or_ge a b with h | h
        · exact Or.inl (flat_lt _ h)
        · exact Or.inr (flat_lt _ (by omega))
      by_cases hjn : j < n
      · have e_j : W * (j * k / W) + j * k % W = j * k := Nat.div_add_mod _ _
        have hoj : j * k % W < W := Nat.mod_lt _ hW
        have hfl := hflat_ne j i hj
        rw [get_general_eq W _ j hkne1 hkneW hjn, get_general_eq W _ j hkne1 hkneW hjn]
        dsimp only
        by_cases hjm : k ≤ W - j * k % W
        · rw [if_pos hjm, if_pos hjm, hpres _ _ _ (by omega)]
        · rw [if_neg hjm, if_neg hjm]
          have hsuc : W * (j * k / W + 1) = W * (j * k / W) + W := Nat.mul_succ W _
          rw [hpres _ _ _ (by omega), hpres _ _ _ (by omega)]
      · rw [get_general_none W _ j hkne1 hkneW (show n ≤ j by omega),
          get_general_none W _ j hkne1 hkneW (show n ≤ j by omega)]

/-- The number of blocks of a well-formed packed vector (`k = W`) is exactly
`n_elements`. -/
theorem length_eq_n_of_packed {W : ℕ} {iv : IntVec} (hWF : iv.WF W)
    (hkW : iv.element_bits = W) (hW : 0 < W) :
    iv.blocks.length = iv.n_elements := by
  obtain ⟨hk1, hkle, hlen, hbound⟩ := hWF
  rw [hlen, hkW]
  have h1 : iv.n_elements * W + W - 1 = W * iv.n_elements + (W - 1) := by
    have : iv.n_elements * W = W * iv.n_elements := Nat.mul_comm _ _
    omega
  rw [h1, Nat.mul_add_div hW, Nat.div_eq_of_lt (by omega), Nat.add_zero]

/-- `set`/`get` round trip in the packed path (`k = W`). -/
theorem set_packed_spec (W : ℕ) (iv : IntVec) (i v : ℕ)
    (hWF : iv.WF W) (hkW : iv.element_bits = W)
    (hi : i < iv.n_elements) (hv : v < 2 ^ iv.element_bits) :
    ∃ iv', iv.set W i v = some iv' ∧ iv'.WF W ∧
      iv'.n_elements = iv.n_elements ∧ iv'.element_bits = iv.element_bits ∧
      iv'.get W i = some v ∧
      ∀ j, j ≠ i → iv'.get W j = iv.get W j := by
  have hW : 0 < W := by
    obtain ⟨hk1, hkle, _, _⟩ := hWF
    omega
  have hLn := length_eq_n_of_packed hWF hkW hW
  have hp : iv.is_packed W = true := by
    unfold IntVec.is_packed
    simp [hkW]
  have hiL : i < iv.blocks.length := by omega
  obtain ⟨old, hold, holdmem⟩ := exists_block hiL
  obtain ⟨hk1, hkle, hlen, hbound⟩ := hWF
  refine ⟨⟨iv.blocks.set i v, iv.n_elements, iv.element_bits⟩, ?_, ?_, rfl, rfl, ?_, ?_⟩
  · simp only [IntVec.set, hp, if_true, hold, Option.map_some']
  · refine ⟨hk1, hkle, ?_, ?_⟩
    · simp only [List.length_set]
      exact hlen
    · intro b hb
      rcases List.mem_or_eq_of_mem_set hb with h | h
      · exact hbound b h
      · subst h
        rw [← hkW]
        exact hv
  · have hp' : IntVec.is_packed W ⟨iv.blocks.set i v, iv.n_elements, iv.element_bits⟩
        = true := hp
    simp only [IntVec.get, hp', if_true]
    exact List.getElem?_set_self (by simpa using hiL)
  · intro j hj
    have hp' : IntVec.is_packed W ⟨iv.blocks.set i v, iv.n_elements, iv.element_bits⟩
        = true := hp
    simp only [IntVec.get, hp', hp, if_true]
    exact List.getElem?_set_ne (Ne.symm hj)

/-- `get` in the single-bit path (`k = 1 ≠ W`). -/
theorem get_bit1_eq (W : ℕ) (iv : IntVec) (j : ℕ)
    (hk1 : iv.element_bits = 1) (hkW : iv.element_bits ≠ W) :
    iv.get W j = (iv.blocks[j / W]?).map fun w => cond (w.testBit (j % W)) 1 0 := by
  have hp : iv.is_packed W = false := is_packed_false hkW
  simp only [IntVec.get, hp, Bool.false_eq_true, if_false, hk1, if_true,
    IntVec.get_bit, IntVec.bit_address, getBitW, Option.map_map]
  rfl

/-- `set` followed by `get` in the single-bit path: the stored bit is
`element_value == 1`, so reading back yields `1` exactly when the written
value was `1`, and `0` otherwise. -/
theorem set_bit1_spec (W : ℕ) (iv : IntVec) (i v : ℕ)
    (hWF : iv.WF W) (hk1 : iv.element_bits = 1) (hkW : iv.element_bits ≠ W)
    (hi : i < iv.n_elements) :
    ∃ iv', iv.set W i v = some iv' ∧ iv'.WF W ∧
      iv'.n_elements = iv.n_elements ∧ iv'.element_bits = iv.element_bits ∧
      iv'.get W i = some (if v = 1 then 1 else 0) ∧
      ∀ j, j ≠ i → iv'.get W j = iv.get W j := by
  obtain ⟨blocks, n, k⟩ := iv
  simp only [IntVec.WF] at hWF
  simp only at hWF hk1 hkW hi ⊢
  obtain ⟨hk1', hkle, hlen, hbound⟩ := hWF
  subst hk1
  have hW : 0 < W := by omega
  have hp : IntVec.is_packed W ⟨blocks, n, 1⟩ = false := is_packed_false hkW
  have hceil : n ≤ blocks.length * W := by
    rw [hlen, Nat.mul_one]
    exact ceil_div_mul_ge _ W hW
  have hblt : i / W < blocks.length := block_index_lt hW (by omega)
  obtain ⟨old, hold, holdmem⟩ := exists_block hblt
  have e_i : W * (i / W) + i % W = i := Nat.div_add_mod _ _
  have hoff : i % W < W := Nat.mod_lt _ hW
  refine ⟨⟨blocks.set (i / W) (setBitW old (i % W) (v == 1)), n, 1⟩,
    ?_, ?_, rfl, rfl, ?_, ?_⟩
  · simp only [IntVec.set, hp, Bool.false_eq_true, if_false, if_true,
      IntVec.set_bit, IntVec.bit_address, hold, Option.map_some']
  · refine ⟨hk1', hkle, ?_, ?_⟩
    · simp only [List.length_set]
      exact hlen
    · intro b hb
      rcases List.mem_or_eq_of_mem_set hb with h | h
      · exact hbound b h
      · subst h
        exact setBitsW_lt _ _ _ _ _ (hbound old holdmem) (by omega)
  · rw [get_bit1_eq W ⟨blocks.set (i / W) (setBitW old (i % W) (v == 1)), n, 1⟩ i rfl hkW]
    simp only
    rw [List.getElem?_set_self (by simpa using hblt), Option.map_some']
    unfold setBitW
    rw [setBitsW_testBit, if_pos (by omega : i % W ≤ i % W ∧ i % W < i % W + 1),
      Nat.sub_self]
    by_cases hv : v = 1
    · simp [hv]
    · have hvf : (v == 1) = false := by simp [hv]
      simp [hvf, hv]
  · intro j hj
    rw [get_bit1_eq W ⟨blocks.set (i / W) (setBitW old (i % W) (v == 1)), n, 1⟩ j rfl hkW,
      get_bit1_eq W ⟨blocks, n, 1⟩ j rfl hkW]
    simp only
    by_cases hb : j / W = i / W
    · have e_j : W * (j / W) + j % W = j := Nat.div_add_mod _ _
      rw [hb] at e_j
      have hne : j % W ≠ i % W := by omega
      rw [hb, List.getElem?_set_self (by simpa using hblt)]
      rw [hold, Option.map_some', Option.map_some']
      unfold setBitW
      rw [testBit_setBitsW_of_disjoint _ _ _ _ _ (by omega)]
    · rw [List.getElem?_set_ne (fun hc => hb hc.symm)]

/-- `set`/`get` round trip for every element width `1 ≤ k ≤ W`:
`set i v` succeeds, `get i` returns `v`, and all other elements are
untouched. -/
theorem set_spec (W : ℕ) (iv : IntVec) (i v : ℕ)
    (hWF : iv.WF W) (hi : i < iv.n_elements) (hv : v < 2 ^ iv.element_bits) :
    ∃ iv', iv.set W i v = some iv' ∧ iv'.WF W ∧
      iv'.n_elements = iv.n_elements ∧ iv'.element_bits = iv.element_bits ∧
      iv'.get W i = some v ∧
      ∀ j, j ≠ i → iv'.get W j = iv.get W j := by
  by_cases hkW : iv.element_bits = W
  · exact set_packed_spec W iv i v hWF hkW hi hv
  · by_cases hk1 : iv.element_bits = 1
    · obtain ⟨iv', h1, h2, h3, h4, h5, h6⟩ := set_bit1_spec W iv i v hWF hk1 hkW hi
      refine ⟨iv', h1, h2, h3, h4, ?_, h6⟩
      rw [h5]
      have hv2 : v < 2 := by
        rw [hk1] at hv
        simpa using hv
      interval_cases v
      · norm_num
      · norm_num
    · have hk1' := hWF.1
      have hkle := hWF.2.1
      exact set_general_spec W iv i v hWF (by omega) (by omega) hi hv

/-- The rounding computation of `compute_block_size` is the usual ceiling
division. -/
theorem ceil_form (a W : ℕ) (hW : 0 < W) :
    a / W + (if 0 < a % W then 1 else 0) = (a + W - 1) / W := by
  have e := Nat.div_add_mod a W
  have m := Nat.mod_lt a hW
  by_cases h : 0 < a % W
  · rw [if_pos h]
    have hmul : W * (a / W + 1) = W * (a / W) + W := Nat.mul_succ W _
    have ha : a + W - 1 = W * (a / W + 1) + (a % W - 1) := by omega
    rw [ha, Nat.mul_add_div hW, Nat.div_eq_of_lt (show a % W - 1 < W by omega)]
  · rw [if_neg h]
    have ha : a + W - 1 = W * (a / W) + (W - 1) := by omega
    rw [ha, Nat.mul_add_div hW, Nat.div_eq_of_lt (show W - 1 < W by omega)]

theorem ceil_le (a W : ℕ) (hW : 0 < W) : (a + W - 1) / W ≤ a := by
  have h1 : a + W - 1 ≤ W * a + (W - 1) := by
    have : a * 1 ≤ a * W := Nat.mul_le_mul_left a hW
    have hc : a * W = W * a := Nat.mul_comm _ _
    omega
  calc (a + W - 1) / W ≤ (W * a + (W - 1)) / W := Nat.div_le_div_right h1
    _ = a + (W - 1) / W := Nat.mul_add_div hW _ _
    _ = a := by rw [Nat.div_eq_of_lt (show W - 1 < W by omega), Nat.add_zero]

/-- `new` in closed form: it fails exactly when `k > W` or `n·k` overflows
64 bits, and otherwise allocates `ceil(n·k/W)` zero blocks.  (With the
modelled 64-bit `usize`, the `to_usize` check can never fail on its own,
because the block count is at most `n·k`.) -/
theorem new_eq (W k n : ℕ) (hW : 0 < W) :
    IntVec.new W k n =
      if W < k then none
      else if n * k < 2 ^ 64 then
        some ⟨List.replicate ((n * k + W - 1) / W) 0, n, k⟩
      else none := by
  unfold IntVec.new IntVec.compute_block_size
  by_cases h1 : W < k
  · rw [if_pos h1, if_pos h1]
    rfl
  · rw [if_neg h1, if_neg h1]
    by_cases h2 : n * k < 2 ^ 64
    · rw [if_pos h2, if_pos h2]
      simp only
      rw [ceil_form _ _ hW]
      rw [if_pos ?_]
      · rfl
      · show (n * k + W - 1) / W < 2 ^ usizeBits
        calc (n * k + W - 1) / W ≤ n * k := ceil_le _ _ hW
          _ < 2 ^ 64 := h2
    · rw [if_neg h2, if_neg h2]
      rfl

theorem new_WF {W k n : ℕ} (hW : 0 < W) (hk1 : 1 ≤ k) {iv : IntVec}
    (h : IntVec.new W k n = some iv) :
    iv.WF W ∧ iv.n_elements = n ∧ iv.element_bits = k ∧
      iv.blocks = List.replicate ((n * k + W - 1) / W) 0 := by
  rw [new_eq W k n hW] at h
  by_cases h1 : W < k
  · rw [if_pos h1] at h
    exact absurd h (by simp)
  · rw [if_neg h1] at h
    by_cases h2 : n * k < 2 ^ 64
    · rw [if_pos h2] at h
      have := Option.some.inj h
      subst this
      refine ⟨⟨hk1, show k ≤ W by omega, by simp, ?_⟩, rfl, rfl, rfl⟩
      intro b hb
      have := List.eq_of_mem_replicate hb
      subst this
      exact Nat.two_pow_pos W
    · rw [if_neg h2] at h
      exact absurd h (by simp)

/-- Every element of a freshly constructed vector reads back as `0`. -/
theorem get_new_zero {W k n : ℕ} (hW : 0 < W) (hk1 : 1 ≤ k) {iv : IntVec}
    (h : IntVec.new W k n = some iv) {i : ℕ} (hi : i < n) :
    iv.get W i = some 0 := by
  obtain ⟨hWF, hn, hk, hblocks⟩ := new_WF hW hk1 h
  subst hn
  subst hk
  obtain ⟨hk1', hkle, hlen, hbound⟩ := hWF
  have hrep : ∀ b, b < iv.blocks.length → iv.blocks[b]? = some 0 := by
    intro b hb
    rw [hblocks] at hb ⊢
    simp only [List.length_replicate] at hb
    rw [List.getElem?_replicate, if_pos hb]
  have hceil : iv.n_elements * iv.element_bits ≤ iv.blocks.length * W := by
    rw [hlen]
    exact ceil_div_mul_ge _ W hW
  have hfit := flat_lt iv.element_bits hi
  have hik_lt : i * iv.element_bits < iv.blocks.length * W := by omega
  have hbi : i * iv.element_bits / W < iv.blocks.length := block_index_lt hW hik_lt
  by_cases hkW : iv.element_bits = W
  · have hp : iv.is_packed W = true := by
      unfold IntVec.is_packed
      simp [hkW]
    simp only [IntVec.get, hp, if_true]
    apply hrep
    rw [length_eq_n_of_packed ⟨hk1', hkle, hlen, hbound⟩ hkW hW]
    exact hi
  · by_cases hki : iv.element_bits = 1
    · rw [get_bit1_eq W iv i hki hkW]
      rw [hki] at hceil
      rw [hrep (i / W) (block_index_lt hW (by omega)), Option.map_some']
      simp [Nat.zero_testBit]
    · rw [get_general_eq W iv i hki hkW hi]
      by_cases hmI : iv.element_bits ≤ W - i * iv.element_bits % W
      · rw [if_pos hmI]
        unfold readRange
        rw [hrep _ hbi, Option.map_some']
        unfold getBitsW
        simp
      · rw [if_neg hmI]
        have e_i : W * (i * iv.element_bits / W) + i * iv.element_bits % W
            = i * iv.element_bits := Nat.div_add_mod _ _
        have hoi : i * iv.element_bits % W < W := Nat.mod_lt _ hW
        have hstrad : W < i * iv.element_bits % W + iv.element_bits := by omega
        have hsuci : W * (i * iv.element_bits / W + 1)
            = W * (i * iv.element_bits / W) + W := Nat.mul_succ W _
        have hbi1 : i * iv.element_bits / W + 1 < iv.blocks.length := by
          have h2 : W * iv.blocks.length = iv.blocks.length * W := Nat.mul_comm _ _
          have h1 : W * (i * iv.element_bits / W + 1) < W * iv.blocks.length := by omega
          exact Nat.lt_of_mul_lt_mul_left h1
        unfold readRange
        rw [hrep _ hbi, hrep _ hbi1]
        simp only [Option.map_some', Option.some_bind]
        unfold getBitsW
        simp

/-- Applying a list of in-range `set` operations succeeds, preserves the
invariant, and afterwards every index reads as the last value set at it
(or its old value if never set). -/
theorem applySets_spec (W : ℕ) (ops : List (ℕ × ℕ)) (iv : IntVec)
    (hWF : iv.WF W)
    (hops : ∀ op ∈ ops, op.1 < iv.n_elements ∧ op.2 < 2 ^ iv.element_bits) :
    ∃ iv', IntVec.applySets W iv ops = some iv' ∧ iv'.WF W ∧
      iv'.n_elements = iv.n_elements ∧ iv'.element_bits = iv.element_bits ∧
      ∀ j, iv'.get W j = (match IntVec.lastSet ops j with
        | some v => some v
        | none => iv.get W j) := by
  induction ops generalizing iv with
  | nil =>
    refine ⟨iv, rfl, hWF, rfl, rfl, ?_⟩
    intro j
    simp [IntVec.lastSet]
  | cons op rest ih =>
    obtain ⟨i, v⟩ := op
    have hop := hops (i, v) (by simp)
    obtain ⟨iv1, hset, hWF1, hn1, hk1, hget1, hpres1⟩ :=
      set_spec W iv i v hWF hop.1 hop.2
    obtain ⟨iv', happ, hWF', hn', hk', hfinal⟩ := ih iv1 hWF1 (by
      intro q hq
      have := hops q (by simp [hq])
      rw [hn1, hk1]
      exact this)
    refine ⟨iv', ?_, hWF', by omega, by omega, ?_⟩
    · simp only [IntVec.applySets, hset, Option.some_bind]
      exact happ
    · intro j
      have hlast : IntVec.lastSet ((i, v) :: rest) j =
          (match IntVec.lastSet rest j with
            | some w => some w
            | none => if i = j then some v else none) := by
        unfold IntVec.lastSet
        rw [List.reverse_cons, List.find?_append]
        cases hfind : (rest.reverse.find? fun op => op.1 == j) with
        | some w =>
          simp [hfind]
        | none =>
          simp only [hfind, Option.map]
          by_cases hij : i = j
          · simp [List.find?, hij]
          · have : ((i, v).1 == j) = false := by simp [hij]
            simp [List.find?, this, hij]
      rw [hlast, hfinal j]
      cases hrest : IntVec.lastSet rest j with
      | some w => rfl
      | none =>
        by_cases hij : i = j
        · subst hij
          simp only [if_pos rfl]
          exact hget1
        · simp only [if_neg hij]
          exact hpres1 j (fun hc => hij hc.symm)


end IntVec

/-! ## Claims about `IntVec` -/

/-- **C2**: for every element width `k ∈ [1, W]`, every element count `n`,
and any sequence of in-range `set` calls with values `< 2^k` on a freshly
constructed `IntVec::new(k, n)`, `get(i)` returns exactly the last value set
at index `i` — covering the packed (`k = W`), aligned (`k ∣ W`) and
unaligned (`k ∤ W`) regimes, which all satisfy `1 ≤ k ≤ W`. -/
theorem claim_C2_roundtrip (W k n : ℕ) (ops : List (ℕ × ℕ)) (iv₀ : IntVec)
    (hW : 0 < W) (hk1 : 1 ≤ k)
    (hnew : IntVec.new W k n = some iv₀)
    (hops : ∀ op ∈ ops, op.1 < n ∧ op.2 < 2 ^ k) :
    ∃ iv', IntVec.applySets W iv₀ ops = some iv' ∧
      ∀ i v, IntVec.lastSet ops i = some v → iv'.get W i = some v := by
  obtain ⟨hWF, hn, hk, _⟩ := IntVec.new_WF hW hk1 hnew
  obtain ⟨iv', happ, _, _, _, hfinal⟩ := IntVec.applySets_spec W ops iv₀ hWF (by
    intro op hop
    rw [hn, hk]
    exact hops op hop)
  refine ⟨iv', happ, ?_⟩
  intro i v hlast
  rw [hfinal i, hlast]

/-- Witness for C2 at `W = 8`, `k = 3` (unaligned), `n = 4`, with index 1
set twice (last value 1 wins). -/
theorem claim_C2_roundtrip_witness :
    ∃ iv', IntVec.applySets 8 ⟨List.replicate 2 0, 4, 3⟩
        [(0, 5), (1, 2), (3, 7), (1, 1)] = some iv' ∧
      ∀ i v, IntVec.lastSet [(0, 5), (1, 2), (3, 7), (1, 1)] i = some v →
        iv'.get 8 i = some v :=
  claim_C2_roundtrip 8 3 4 [(0, 5), (1, 2), (3, 7), (1, 1)]
    ⟨List.replicate 2 0, 4, 3⟩ (by norm_num) (by norm_num) (by decide) (by decide)

/-- **C3 counterexample**: with `W = 32`, `k = 1`, `n = 5`, the element
index `5 ≥ n` does **not** fault: `get(5)` returns `0` and `set(5, 1)`
succeeds, because the `k = 1` fast path boundlessly addresses the padding
bits of the last block. -/
theorem claim_C3_counterexample :
    ((IntVec.new 32 1 5).bind fun iv => iv.get 32 5) = some 0 ∧
      (((IntVec.new 32 1 5).bind fun iv => iv.set 32 5 1).isSome = true) := by
  decide

/-- **C3 (amended)**: element accesses at `index ≥ n` fault for every width
`k = W` (packed) and every `2 ≤ k` (general path); in the `k = 1 < W` fast
path, `get`/`set` instead fault exactly when the flat bit index reaches the
allocated storage `blocks.len()·W`, silently accepting the padding indices
in `[n, blocks.len()·W)`. -/
theorem claim_C3_amended (W : ℕ) (iv : IntVec) (i v : ℕ)
    (hWF : iv.WF W) (hi : iv.n_elements ≤ i) :
    ((iv.element_bits = W ∨ 2 ≤ iv.element_bits) →
      iv.get W i = none ∧ iv.set W i v = none)
    ∧ (iv.element_bits = 1 ∧ 1 < W →
      (iv.get W i = none ↔ iv.blocks.length * W ≤ i)
      ∧ (iv.set W i v = none ↔ iv.blocks.length * W ≤ i)) := by
  have hW : 0 < W := by
    have := hWF.1
    have := hWF.2.1
    omega
  constructor
  · intro hcase
    by_cases hkW : iv.element_bits = W
    · have hp : iv.is_packed W = true := by
        unfold IntVec.is_packed
        simp [hkW]
      have hLn := IntVec.length_eq_n_of_packed hWF hkW hW
      have hnone : iv.blocks[i]? = none := List.getElem?_eq_none (by omega)
      constructor
      · simp only [IntVec.get, hp, if_true, hnone]
      · simp only [IntVec.set, hp, if_true, hnone, Option.map_none']
    · have hk2 : 2 ≤ iv.element_bits := by
        rcases hcase with h | h
        · exact absurd h hkW
        · exact h
      exact ⟨IntVec.get_general_none W iv i (by omega) hkW hi,
        IntVec.set_general_none W iv i v (by omega) hkW hi⟩
  · rintro ⟨hk1, hW1⟩
    have hkW : iv.element_bits ≠ W := by omega
    have hdiv : (iv.blocks.length ≤ i / W) ↔ iv.blocks.length * W ≤ i :=
      Nat.le_div_iff_mul_le hW
    constructor
    · rw [IntVec.get_bit1_eq W iv i hk1 hkW]
      cases hblk : iv.blocks[i / W]? with
      | none =>
        have := List.getElem?_eq_none_iff.mp hblk
        simp only [Option.map_none']
        constructor
        · intro _
          exact hdiv.mp this
        · intro _
          trivial
      | some w =>
        have hlt : i / W < iv.blocks.length := by
          by_contra hcon
          rw [List.getElem?_eq_none (by omega)] at hblk
          exact Option.noConfusion hblk
        simp only [Option.map_some']
        constructor
        · intro hcon
          exact Option.noConfusion hcon
        · intro hcon
          exact absurd (hdiv.mpr hcon) (by omega)
    · have hp : iv.is_packed W = false := IntVec.is_packed_false hkW
      simp only [IntVec.set, hp, Bool.false_eq_true, if_false, hk1, if_true,
        IntVec.set_bit, IntVec.bit_address]
      cases hblk : iv.blocks[i / W]? with
      | none =>
        have := List.getElem?_eq_none_iff.mp hblk
        rw [Option.map_none']
        exact ⟨fun _ => hdiv.mp this, fun _ => rfl⟩
      | some w =>
        have hlt : i / W < iv.blocks.length := by
          by_contra hcon
          rw [List.getElem?_eq_none (by omega)] at hblk
          exact Option.noConfusion hblk
        rw [Option.map_some']
        exact ⟨fun hcon => Option.noConfusion hcon,
          fun hcon => absurd (hdiv.mpr hcon) (by omega)⟩

/-- Witness for the amended C3: `W = 8`, `k = 3`, `n = 4`, access at 4. -/
theorem claim_C3_amended_witness :
    ((3 = 8 ∨ 2 ≤ 3) →
      IntVec.get 8 ⟨List.replicate 2 0, 4, 3⟩ 4 = none
      ∧ IntVec.set 8 ⟨List.replicate 2 0, 4, 3⟩ 4 0 = none)
    ∧ (3 = 1 ∧ 1 < 8 →
      (IntVec.get 8 ⟨List.replicate 2 0, 4, 3⟩ 4 = none ↔ 2 * 8 ≤ 4)
      ∧ (IntVec.set 8 ⟨List.replicate 2 0, 4, 3⟩ 4 0 = none ↔ 2 * 8 ≤ 4)) :=
  claim_C3_amended 8 ⟨List.replicate 2 0, 4, 3⟩ 4 0
    ⟨by norm_num, by norm_num, by decide, by decide⟩ (by decide)

/-- **C5**: `IntVec::new(k, n)` fails exactly when `k > W`, when `n·k`
overflows 64 bits, or when the block count `ceil(n·k/W)` overflows `usize`;
on success it allocates exactly `ceil(n·k/W)` zero blocks, and every
element of the fresh vector reads back as `0`. -/
theorem claim_C5_new (W k n : ℕ) (hW : 0 < W) :
    (IntVec.new W k n = none ↔
      (W < k ∨ 2 ^ 64 ≤ n * k ∨ 2 ^ usizeBits ≤ (n * k + W - 1) / W))
    ∧ ∀ iv, IntVec.new W k n = some iv →
        iv.blocks = List.replicate ((n * k + W - 1) / W) 0
        ∧ iv.blocks.length = (n * k + W - 1) / W
        ∧ (1 ≤ k → ∀ i, i < n → iv.get W i = some 0) := by
  constructor
  · rw [IntVec.new_eq W k n hW]
    by_cases h1 : W < k
    · simp [h1]
    · rw [if_neg h1]
      by_cases h2 : n * k < 2 ^ 64
      · rw [if_pos h2]
        have h3 : ¬ 2 ^ usizeBits ≤ (n * k + W - 1) / W := by
          have := IntVec.ceil_le (n * k) W hW
          unfold usizeBits
          omega
        constructor
        · intro hcon
          exact absurd hcon (by simp)
        · intro hcon
          rcases hcon with h | h | h
          · exact absurd h h1
          · omega
          · exact absurd h h3
      · rw [if_neg h2]
        constructor
        · intro _
          exact Or.inr (Or.inl (by omega))
        · intro _
          rfl
  · intro iv hiv
    have hnew := hiv
    rw [IntVec.new_eq W k n hW] at hnew
    by_cases h1 : W < k
    · rw [if_pos h1] at hnew
      exact absurd hnew (by simp)
    · rw [if_neg h1] at hnew
      by_cases h2 : n * k < 2 ^ 64
      · rw [if_pos h2] at hnew
        have := Option.some.inj hnew
        subst this
        refine ⟨rfl, by simp, ?_⟩
        intro hk1 i hi
        exact IntVec.get_new_zero hW hk1 hiv hi
      · rw [if_neg h2] at hnew
        exact absurd hnew (by simp)

/-- Witness for C5 at `W = 8`, `k = 3`, `n = 4`. -/
theorem claim_C5_new_witness :
    (IntVec.new 8 3 4 = none ↔
      (8 < 3 ∨ 2 ^ 64 ≤ 4 * 3 ∨ 2 ^ usizeBits ≤ (4 * 3 + 8 - 1) / 8))
    ∧ ∀ iv, IntVec.new 8 3 4 = some iv →
        iv.blocks = List.replicate ((4 * 3 + 8 - 1) / 8) 0
        ∧ iv.blocks.length = (4 * 3 + 8 - 1) / 8
        ∧ (1 ≤ 3 → ∀ i, i < 4 → iv.get 8 i = some 0) :=
  claim_C5_new 8 3 4 (by norm_num)

/-- **C8**: with a 16-bit block and `k = 13`, `n = 5`, setting `[1,1,2,3,5]`
in index order decodes back (by `get` and by iteration) to `[1,1,2,3,5]`,
and the Debug rendering is exactly
`IntVec { element_bits: 13, elements: { 1, 1, 2, 3, 5, } }`. -/
theorem claim_C8_straddling :
    ((IntVec.new 16 13 5).bind fun v =>
        IntVec.applySets 16 v [(0, 1), (1, 1), (2, 2), (3, 3), (4, 5)]).bind
      (IntVec.iterList 16) = some [1, 1, 2, 3, 5]
    ∧ (((IntVec.new 16 13 5).bind fun v =>
        IntVec.applySets 16 v [(0, 1), (1, 1), (2, 2), (3, 3), (4, 5)]).bind fun v =>
          (List.range 5).mapM (v.get 16)) = some [1, 1, 2, 3, 5]
    ∧ ((IntVec.new 16 13 5).bind fun v =>
        IntVec.applySets 16 v [(0, 1), (1, 1), (2, 2), (3, 3), (4, 5)]).bind
      (IntVec.debugFmt 16)
      = some "IntVec \x7b element_bits: 13, elements: \x7b 1, 1, 2, 3, 5, \x7d \x7d" := by
  refine ⟨by decide, by decide, ?_⟩
  rfl

/-- **C9**: in the `k = 1 < W` path, `set(i, v)` stores the bit
`v == 1`, so `get(i)` afterwards returns `1` exactly when `v = 1` and `0`
for every other `v` — including `v ≥ 2`, which is stored as `0` rather than
truncated to its low bit. -/
theorem claim_C9_bit_set (W : ℕ) (iv : IntVec) (i v : ℕ)
    (hWF : iv.WF W) (hk1 : iv.element_bits = 1) (hW1 : 1 < W)
    (hi : i < iv.n_elements) :
    ∃ iv', iv.set W i v = some iv' ∧
      iv'.get W i = some (if v = 1 then 1 else 0) := by
  have hkne : iv.element_bits ≠ W := by omega
  obtain ⟨iv', h1, _, _, _, h5, _⟩ := IntVec.set_bit1_spec W iv i v hWF hk1 hkne hi
  exact ⟨iv', h1, h5⟩

/-- Witness for C9: storing `v = 3` (which has low bit 1) yields `0`. -/
theorem claim_C9_bit_set_witness :
    ∃ iv', IntVec.set 32 ⟨List.replicate 1 0, 5, 1⟩ 2 3 = some iv' ∧
      iv'.get 32 2 = some (if 3 = 1 then 1 else 0) :=
  claim_C9_bit_set 32 ⟨List.replicate 1 0, 5, 1⟩ 2 3
    ⟨by norm_num, by norm_num, by decide, by decide⟩ (by decide)
    (by norm_num) (by decide)

/-- **C10**: `get_bit`/`set_bit` perform no check against `n_elements`; they
fault exactly when the flat bit index reaches `blocks.len()·W`, so every
padding bit position below that is accepted without fault. -/
theorem claim_C10_bit_addressing (W : ℕ) (iv : IntVec) (pos : ℕ) (hW : 0 < W) :
    (iv.get_bit W pos = none ↔ iv.blocks.length * W ≤ pos)
    ∧ (∀ b, iv.set_bit W pos b = none ↔ iv.blocks.length * W ≤ pos)
    ∧ (pos < iv.blocks.length * W → (iv.get_bit W pos).isSome = true) := by
  have hdiv : (iv.blocks.length ≤ pos / W) ↔ iv.blocks.length * W ≤ pos :=
    Nat.le_div_iff_mul_le hW
  have hget : iv.get_bit W pos = none ↔ iv.blocks.length * W ≤ pos := by
    unfold IntVec.get_bit IntVec.bit_address
    dsimp only
    cases hblk : iv.blocks[pos / W]? with
    | none =>
      have := List.getElem?_eq_none_iff.mp hblk
      rw [Option.map_none']
      exact ⟨fun _ => hdiv.mp this, fun _ => rfl⟩
    | some w =>
      have hlt : pos / W < iv.blocks.length := by
        by_contra hcon
        rw [List.getElem?_eq_none (by omega)] at hblk
        exact Option.noConfusion hblk
      rw [Option.map_some']
      exact ⟨fun hcon => Option.noConfusion hcon,
        fun hcon => absurd (hdiv.mpr hcon) (by omega)⟩
  refine ⟨hget, ?_, ?_⟩
  · intro b
    unfold IntVec.set_bit IntVec.bit_address
    dsimp only
    cases hblk : iv.blocks[pos / W]? with
    | none =>
      have := List.getElem?_eq_none_iff.mp hblk
      rw [Option.map_none']
      exact ⟨fun _ => hdiv.mp this, fun _ => rfl⟩
    | some w =>
      have hlt : pos / W < iv.blocks.length := by
        by_contra hcon
        rw [List.getElem?_eq_none (by omega)] at hblk
        exact Option.noConfusion hblk
      rw [Option.map_some']
      exact ⟨fun hcon => Option.noConfusion hcon,
        fun hcon => absurd (hdiv.mpr hcon) (by omega)⟩
  · intro hlt
    rw [Option.isSome_iff_ne_none]
    intro hcon
    have := hget.mp hcon
    omega

/-- Witness for C10: `W = 32`, one block, padding bit 10 of a 5-element
1-bit vector is accepted; bit 32 faults. -/
theorem claim_C10_bit_addressing_witness :
    (IntVec.get_bit 32 ⟨List.replicate 1 0, 5, 1⟩ 10 = none ↔ 1 * 32 ≤ 10)
    ∧ (∀ b, IntVec.set_bit 32 ⟨List.replicate 1 0, 5, 1⟩ 10 b = none ↔ 1 * 32 ≤ 10)
    ∧ (10 < 1 * 32 → (IntVec.get_bit 32 ⟨List.replicate 1 0, 5, 1⟩ 10).isSome = true) := by
  have h := claim_C10_bit_addressing 32 ⟨List.replicate 1 0, 5, 1⟩ 10 (by norm_num)
  simpa using h

/-! ### Counting lemmas -/

theorem srcBit_in_word (W : ℕ) (src : BitSource) (t r : ℕ) (hW : 0 < W) (hr : r < W) :
    srcBit W src (t * W + r) = (src.get_block t).testBit (W - 1 - r) := by
  unfold srcBit
  have h1 : (t * W + r) / W = t := by
    rw [Nat.mul_comm t W, Nat.mul_add_div hW, Nat.div_eq_of_lt hr, Nat.add_zero]
  have h2 : (t * W + r) % W = r := by
    rw [Nat.mul_comm t W, Nat.mul_add_mod, Nat.mod_eq_of_lt hr]
  rw [h1, h2]

theorem countOnes_succ (W : ℕ) (src : BitSource) (a b : ℕ) (hab : a ≤ b) :
    countOnes W src a (b + 1)
      = countOnes W src a b + (if srcBit W src b then 1 else 0) := by
  unfold countOnes
  rw [Nat.Ico_succ_right_eq_insert_Ico hab, Finset.filter_insert]
  by_cases hb : srcBit W src b
  · rw [if_pos (by simp [hb]), if_pos hb,
      Finset.card_insert_of_not_mem (by simp [Finset.mem_Ico])]
  · rw [if_neg (by simp [hb]), if_neg hb, Nat.add_zero]

theorem countOnes_split (W : ℕ) (src : BitSource) (a b c : ℕ)
    (h1 : a ≤ b) (h2 : b ≤ c) :
    countOnes W src a c = countOnes W src a b + countOnes W src b c := by
  unfold countOnes
  rw [← Finset.Ico_union_Ico_eq_Ico h1 h2, Finset.filter_union,
    Finset.card_union_of_disjoint]
  exact Finset.disjoint_filter_filter (Finset.Ico_disjoint_Ico_consecutive a b c)

theorem countOnes_le (W : ℕ) (src : BitSource) (a b : ℕ) :
    countOnes W src a b ≤ b - a := by
  unfold countOnes
  calc ((Finset.Ico a b).filter _).card ≤ (Finset.Ico a b).card :=
        Finset.card_filter_le _ _
    _ = b - a := Nat.card_Ico a b

/-- Counting set bits of one word over a flat range is counting MSB-first
positions inside the word. -/
theorem countOnes_word_prefix (W : ℕ) (src : BitSource) (t c : ℕ)
    (hW : 0 < W) (hc : c ≤ W) :
    countOnes W src (t * W) (t * W + c)
      = ((Finset.range c).filter
          (fun r => (src.get_block t).testBit (W - 1 - r) = true)).card := by
  induction c with
  | zero =>
    simp [countOnes]
  | succ c ih =>
    rw [← Nat.add_assoc]
    rw [countOnes_succ W src _ _ (by omega), ih (by omega), Finset.range_succ,
      Finset.filter_insert, srcBit_in_word W src t c hW (by omega)]
    by_cases hb : (src.get_block t).testBit (W - 1 - c) = true
    · rw [if_pos hb, if_pos hb,
        Finset.card_insert_of_not_mem (by simp [Finset.mem_range])]
    · rw [if_neg hb, if_neg (by simpa using hb), Nat.add_zero]

/-- The word-internal popcount of `rank`: shifting right by
`W - o - 1` and counting ones counts exactly the MSB-first bit positions
`≤ o` of the word. -/
theorem popcountW_shifted (W blk o : ℕ) (hblk : blk < 2 ^ W) (ho : o < W) :
    popcountW W (blk >>> (W - o - 1))
      = ((Finset.range (o + 1)).filter
          (fun r => blk.testBit (W - 1 - r) = true)).card := by
  unfold popcountW
  have hstep : ∀ j : ℕ, (blk >>> (W - o - 1)).testBit j = blk.testBit (W - o - 1 + j) := by
    intro j
    exact Nat.testBit_shiftRight blk
  have hcut : (Finset.range W).filter
        (fun j => (blk >>> (W - o - 1)).testBit j = true)
      = (Finset.range (o + 1)).filter
        (fun j => (blk >>> (W - o - 1)).testBit j = true) := by
    apply Finset.ext
    intro j
    simp only [Finset.mem_filter, Finset.mem_range]
    constructor
    · rintro ⟨hjW, hbit⟩
      refine ⟨?_, hbit⟩
      by_contra hcon
      rw [hstep j] at hbit
      have : blk.testBit (W - o - 1 + j) = false :=
        Nat.testBit_lt_two_pow (lt_of_lt_of_le hblk
          (Nat.pow_le_pow_right (by norm_num) (by omega)))
      rw [this] at hbit
      exact Bool.false_ne_true hbit
    · rintro ⟨hjo, hbit⟩
      exact ⟨by omega, hbit⟩
  rw [hcut]
  apply Finset.card_bij' (fun j _ => o - j) (fun r _ => o - r)
  · intro a ha
    simp only [Finset.mem_filter, Finset.mem_range] at ha ⊢
    refine ⟨by omega, ?_⟩
    rw [hstep a] at ha
    have : W - 1 - (o - a) = W - o - 1 + a := by omega
    rw [this]
    exact ha.2
  · intro a ha
    simp only [Finset.mem_filter, Finset.mem_range] at ha ⊢
    refine ⟨by omega, ?_⟩
    rw [hstep (o - a)]
    have : W - o - 1 + (o - a) = W - 1 - a := by omega
    rw [this]
    exact ha.2
  · intro a ha
    simp only [Finset.mem_filter, Finset.mem_range] at ha
    omega
  · intro a ha
    simp only [Finset.mem_filter, Finset.mem_range] at ha
    omega

/-- The popcount of one whole word is the count of its flat positions. -/
theorem popcountW_word (W : ℕ) (src : BitSource) (t : ℕ)
    (hW : 0 < W) (hblk : src.get_block t < 2 ^ W) :
    popcountW W (src.get_block t) = countOnes W src (t * W) (t * W + W) := by
  have h0 : src.get_block t >>> (W - (W - 1) - 1) = src.get_block t := by
    have : W - (W - 1) - 1 = 0 := by omega
    rw [this]
    rfl
  have h1 := popcountW_shifted W (src.get_block t) (W - 1) hblk (by omega)
  rw [h0] at h1
  rw [h1, countOnes_word_prefix W src t W hW (by omega)]
  have hW1 : W - 1 + 1 = W := by omega
  rw [hW1]

/-- The block-popcount prefix sums are flat bit counts. -/
theorem wordSum_eq_countOnes (W : ℕ) (src : BitSource) (m : ℕ)
    (hW : 0 < W) (hblk : ∀ i, i < m → src.get_block i < 2 ^ W) :
    wordSum W src m = countOnes W src 0 (m * W) := by
  induction m with
  | zero =>
    simp [wordSum, countOnes]
  | succ m ih =>
    rw [wordSum, Finset.sum_range_succ, ← wordSum,
      ih (fun i hi => hblk i (by omega)),
      popcountW_word W src m hW (hblk m (by omega)),
      ← countOnes_split W src 0 (m * W) (m * W + W) (by omega) (by omega)]
    congr 1
    ring

theorem wordSum_succ (W : ℕ) (src : BitSource) (m : ℕ) :
    wordSum W src (m + 1) = wordSum W src m + popcountW W (src.get_block m) := by
  unfold wordSum
  exact Finset.sum_range_succ _ m

theorem wordSum_mono (W : ℕ) (src : BitSource) {a b : ℕ} (h : a ≤ b) :
    wordSum W src a ≤ wordSum W src b := by
  unfold wordSum
  exact Finset.sum_le_sum_of_subset (Finset.range_subset.mpr h)

theorem wordSum_le (W : ℕ) (src : BitSource) (m : ℕ) :
    wordSum W src m ≤ m * W := by
  induction m with
  | zero => simp [wordSum]
  | succ m ih =>
    rw [wordSum_succ]
    have := popcountW_le W (src.get_block m)
    have hm : (m + 1) * W = m * W + W := by ring
    omega

theorem rankScanStep_sbi_zero (W spl : ℕ) (src : BitSource)
    (lbr sbr : IntVec64) (cr llr i : ℕ) :
    rankScanStep W spl src ⟨lbr, sbr, cr, llr, 0⟩ i
      = if 1 = spl then
          ⟨lbr.push cr, sbr.push 0, cr + popcountW W (src.get_block i), cr, 0⟩
        else
          ⟨lbr.push cr, sbr.push 0, cr + popcountW W (src.get_block i), cr, 1⟩ := by
  unfold rankScanStep
  simp [Nat.sub_self]

theorem rankScanStep_sbi_ne (W spl : ℕ) (src : BitSource)
    (lbr sbr : IntVec64) (cr llr i r : ℕ) (hr : r ≠ 0) :
    rankScanStep W spl src ⟨lbr, sbr, cr, llr, r⟩ i
      = if r + 1 = spl then
          ⟨lbr, sbr.push (cr - llr), cr + popcountW W (src.get_block i), llr, 0⟩
        else
          ⟨lbr, sbr.push (cr - llr), cr + popcountW W (src.get_block i), llr, r + 1⟩ := by
  unfold rankScanStep
  simp [hr]

theorem div_mul_pred_of_mod_ne {t spl : ℕ} (hspl : 0 < spl) (h : t % spl ≠ 0) :
    (t - 1) / spl = t / spl := by
  have e := Nat.div_add_mod t spl
  have m := Nat.mod_lt t hspl
  have h1 : t - 1 = spl * (t / spl) + (t % spl - 1) := by omega
  rw [h1, Nat.mul_add_div hspl,
    Nat.div_eq_of_lt (show t % spl - 1 < spl by omega), Nat.add_zero]

theorem ceil_div_of_mod_zero {t spl : ℕ} (hspl : 0 < spl) (h : t % spl = 0) :
    (t + spl - 1) / spl = t / spl := by
  have e := Nat.div_add_mod t spl
  have h1 : t + spl - 1 = spl * (t / spl) + (spl - 1) := by omega
  rw [h1, Nat.mul_add_div hspl,
    Nat.div_eq_of_lt (show spl - 1 < spl by omega), Nat.add_zero]

theorem ceil_div_succ_of_mod_zero {t spl : ℕ} (hspl : 0 < spl) (h : t % spl = 0) :
    (t + 1 + spl - 1) / spl = t / spl + 1 := by
  have e := Nat.div_add_mod t spl
  have hmul : spl * (t / spl + 1) = spl * (t / spl) + spl := Nat.mul_succ _ _
  have h1 : t + 1 + spl - 1 = spl * (t / spl + 1) := by omega
  rw [h1, Nat.mul_div_cancel_left _ hspl]

theorem ceil_div_succ_of_mod_ne {t spl : ℕ} (hspl : 0 < spl) (h : t % spl ≠ 0) :
    (t + 1 + spl - 1) / spl = (t + spl - 1) / spl := by
  have e := Nat.div_add_mod t spl
  have m := Nat.mod_lt t hspl
  have h1 : t + spl - 1 = spl * (t / spl + 1) + (t % spl - 1) := by
    have hmul : spl * (t / spl + 1) = spl * (t / spl) + spl := Nat.mul_succ _ _
    omega
  have h2 : t + 1 + spl - 1 = spl * (t / spl + 1) + (t % spl) := by
    have hmul : spl * (t / spl + 1) = spl * (t / spl) + spl := Nat.mul_succ _ _
    omega
  rw [h1, h2, Nat.mul_add_div hspl, Nat.mul_add_div hspl,
    Nat.div_eq_of_lt (show t % spl < spl by omega),
    Nat.div_eq_of_lt (show t % spl - 1 < spl by omega)]

theorem mod_succ_form (t spl : ℕ) (hspl : 0 < spl) :
    (t + 1) % spl = if t % spl + 1 = spl then 0 else t % spl + 1 := by
  have e := Nat.div_add_mod t spl
  have m := Nat.mod_lt t hspl
  by_cases h : t % spl + 1 = spl
  · rw [if_pos h]
    have h1 : t + 1 = spl * (t / spl + 1) := by
      have hmul : spl * (t / spl + 1) = spl * (t / spl) + spl := Nat.mul_succ _ _
      omega
    rw [h1, Nat.mul_mod_right]
  · rw [if_neg h]
    have h1 : t + 1 = spl * (t / spl) + (t % spl + 1) := by omega
    rw [h1, Nat.mul_add_mod, Nat.mod_eq_of_lt (by omega)]

/-- The construction scan invariant: after processing blocks `[0, t)`, the
tables hold the (width-truncated) cumulative popcounts at each large-block
boundary and the per-word excess over the enclosing large block, and the
running counters hold the totals. -/
theorem rankScan_invariant (W spl : ℕ) (src : BitSource) (lgm smm : ℕ)
    (hspl : 0 < spl) (t : ℕ) :
    (List.range t).foldl (rankScanStep W spl src) ⟨⟨lgm, []⟩, ⟨smm, []⟩, 0, 0, 0⟩
      = ⟨⟨lgm, (List.range ((t + spl - 1) / spl)).map
            (fun q => wordSum W src (q * spl) % 2 ^ lgm)⟩,
         ⟨smm, (List.range t).map
            (fun i => (wordSum W src i - wordSum W src (i / spl * spl)) % 2 ^ smm)⟩,
         wordSum W src t,
         wordSum W src ((t - 1) / spl * spl),
         t % spl⟩ := by
  induction t with
  | zero =>
    have h1 : (0 + spl - 1) / spl = 0 := Nat.div_eq_of_lt (by omega)
    have h2 : (spl - 1) / spl = 0 := Nat.div_eq_of_lt (by omega)
    simp [h1, h2, wordSum]
  | succ t ih =>
    rw [List.range_succ, List.foldl_append, ih, List.foldl_cons, List.foldl_nil]
    have e := Nat.div_add_mod t spl
    have m := Nat.mod_lt t hspl
    by_cases hr : t % spl = 0
    · -- large-block boundary
      have hq : t / spl * spl = t := by
        have hc : t / spl * spl = spl * (t / spl) := Nat.mul_comm _ _
        omega
      rw [hr, rankScanStep_sbi_zero]
      have hceil := ceil_div_of_mod_zero hspl hr
      have hceil1 := ceil_div_succ_of_mod_zero hspl hr
      have hlarge : (List.range ((t + 1 + spl - 1) / spl)).map
            (fun q => wordSum W src (q * spl) % 2 ^ lgm)
          = (List.range ((t + spl - 1) / spl)).map
              (fun q => wordSum W src (q * spl) % 2 ^ lgm)
            ++ [wordSum W src t % 2 ^ lgm] := by
        rw [hceil1, hceil, List.range_succ, List.map_append]
        simp [hq]
      have hsmall : (List.range t ++ [t]).map
            (fun i => (wordSum W src i - wordSum W src (i / spl * spl)) % 2 ^ smm)
          = (List.range t).map
              (fun i => (wordSum W src i - wordSum W src (i / spl * spl)) % 2 ^ smm)
            ++ [0 % 2 ^ smm] := by
        rw [List.map_append]
        simp [hq]
      have hmod := mod_succ_form t spl hspl
      have hlast : (t + 1 - 1) / spl * spl = t := by
        simp [hq]
      by_cases hsp : 1 = spl
      · rw [if_pos hsp]
        rw [hlarge]
        rw [hsmall]
        rw [wordSum_succ]
        rw [hlast]
        rw [hmod]
        rw [if_pos (show t % spl + 1 = spl by omega)]
        simp [IntVec64.push]
      · rw [if_neg hsp, hlarge, hsmall, wordSum_succ, hlast, hmod,
          if_neg (show ¬ t % spl + 1 = spl by omega)]
        simp [IntVec64.push, hr]
    · -- inside a large block
      rw [rankScanStep_sbi_ne W spl src _ _ _ _ _ _ hr]
      have hceil1 := ceil_div_succ_of_mod_ne hspl hr
      have hpred := div_mul_pred_of_mod_ne hspl hr
      have hsmall : (List.range t ++ [t]).map
            (fun i => (wordSum W src i - wordSum W src (i / spl * spl)) % 2 ^ smm)
          = (List.range t).map
              (fun i => (wordSum W src i - wordSum W src (i / spl * spl)) % 2 ^ smm)
            ++ [(wordSum W src t - wordSum W src ((t - 1) / spl * spl)) % 2 ^ smm] := by
        rw [List.map_append]
        simp [hpred]
      have hmod := mod_succ_form t spl hspl
      have hlast : (t + 1 - 1) / spl * spl = (t - 1) / spl * spl := by
        rw [Nat.add_sub_cancel, hpred]
      by_cases hsp : t % spl + 1 = spl
      · rw [if_pos hsp, hceil1, hsmall, wordSum_succ, hlast, hmod, if_pos hsp]
        simp [IntVec64.push]
      · rw [if_neg hsp, hceil1, hsmall, wordSum_succ, hlast, hmod, if_neg hsp]
        simp [IntVec64.push]

theorem wordSum_sub_le (W : ℕ) (src : BitSource) {a b : ℕ} (h : a ≤ b) :
    wordSum W src b - wordSum W src a ≤ (b - a) * W := by
  induction b with
  | zero =>
    simp [wordSum]
  | succ b ih =>
    rcases Nat.lt_or_ge a (b + 1) with hab | hab
    · have hab' : a ≤ b := by omega
      have := ih hab'
      have hpc := popcountW_le W (src.get_block b)
      rw [wordSum_succ]
      have hmono := wordSum_mono W src hab'
      have he : (b + 1 - a) * W = (b - a) * W + W := by
        rw [show b + 1 - a = (b - a) + 1 by omega]
        ring
      omega
    · have : a = b + 1 := by omega
      subst this
      simp

theorem getD_map_range (f : ℕ → ℕ) {m q : ℕ} (h : q < m) (tail : List ℕ) :
    ((List.range m).map f ++ tail).getD q 0 = f q := by
  rw [List.getD_eq_getElem?_getD,
    List.getElem?_append_left (by simpa using h), List.getElem?_map,
    List.getElem?_range h]
  rfl

theorem bitLength_eq_size {W x : ℕ} (h : x < 2 ^ W) : bitLength W x = Nat.size x := by
  have hsz : Nat.size x ≤ W := Nat.size_le.mpr h
  unfold bitLength
  have hset : (Finset.range W).filter (fun j => 2 ^ j ≤ x) = Finset.range (Nat.size x) := by
    apply Finset.ext
    intro j
    simp only [Finset.mem_filter, Finset.mem_range]
    constructor
    · rintro ⟨hjW, hle⟩
      exact Nat.lt_size.mpr hle
    · intro hj
      exact ⟨by omega, Nat.lt_size.mp hj⟩
  rw [hset, Finset.card_range]

theorem ceil_log2_le (x : ℕ) : ceil_log2 64 x ≤ 64 := by
  unfold ceil_log2
  split
  · omega
  · omega

/-- For `2 ≤ n < 2^64`, `ceil_log2` really is a ceiling: `n ≤ 2^ceil_log2(n)`. -/
theorem ceil_log2_ge (n : ℕ) (h2 : 2 ≤ n) (h64 : n < 2 ^ 64) :
    n ≤ 2 ^ ceil_log2 64 n := by
  unfold ceil_log2 leadingZeros
  rw [if_neg (by omega), bitLength_eq_size (show n - 1 < 2 ^ 64 by omega)]
  have hsz : Nat.size (n - 1) ≤ 64 := Nat.size_le.mpr (by omega)
  have h1 : 64 - (64 - Nat.size (n - 1)) = Nat.size (n - 1) := by omega
  rw [h1]
  have := Nat.lt_size_self (n - 1)
  omega

/-- Full correctness of the two-level rank structure: for every well-formed
bit-addressable source over which `RankSupport::new` succeeds, and every
position below the source's bit length, `rank(position)` is the inclusive
count of set bits over `[0, position]`. -/
theorem rank_correct (W : ℕ) (src : BitSource) (r : RankSupport) (pos : ℕ)
    (hW : 0 < W) (hW64 : W ≤ 64) (h64 : src.bit_len < 2 ^ 64)
    (hsrc : src.WF W)
    (hr : RankSupport.new W src = some r)
    (hpos : pos < src.bit_len) :
    r.rank W src pos = countOnesInclusive W src pos := by
  obtain ⟨hlen, hblocks⟩ := hsrc
  simp only [RankSupport.new] at hr
  by_cases hLBS :
      W * ((ceil_log2 64 src.bit_len * ceil_log2 64 src.bit_len + W - 1) / W) = 0
  · rw [if_pos hLBS] at hr
    exact absurd hr (by simp)
  · rw [if_neg hLBS] at hr
    have hspl : 0 < (ceil_log2 64 src.bit_len * ceil_log2 64 src.bit_len + W - 1) / W := by
      rcases Nat.eq_zero_or_pos
          ((ceil_log2 64 src.bit_len * ceil_log2 64 src.bit_len + W - 1) / W) with h | h
      · rw [h, Nat.mul_zero] at hLBS
        exact absurd rfl hLBS
      · exact h
    -- abbreviations
    set lg := ceil_log2 64 src.bit_len with hlg
    set spl := (lg * lg + W - 1) / W with hspl_def
    set bl := src.block_len with hbl
    clear_value bl
    clear_value spl
    clear_value lg
    rw [rankScan_invariant W spl src lg (ceil_log2 64 (W * spl)) hspl bl] at hr
    dsimp only at hr
    have hr' := (Option.some.inj hr).symm
    subst hr'
    -- the source is at least 2 bits long
    have hlg1 : 1 ≤ lg := by
      by_contra hcon
      have hlg0 : lg = 0 := by omega
      rw [hlg0] at hspl_def
      have : spl = 0 := by
        rw [hspl_def, Nat.zero_mul, Nat.zero_add]
        exact Nat.div_eq_of_lt (by omega)
      omega
    have hn2 : 2 ≤ src.bit_len := by
      by_contra hcon
      have : lg = 0 := by
        rw [hlg]
        unfold ceil_log2
        rw [if_pos (by omega)]
      omega
    -- index arithmetic
    have e_pos : W * (pos / W) + pos % W = pos := Nat.div_add_mod _ _
    have hoff : pos % W < W := Nat.mod_lt _ hW
    have ht_lt : pos / W < bl := @IntVec.block_index_lt W bl pos hW (by omega)
    have hq_eq : pos / (W * spl) = pos / W / spl := (Nat.div_div_eq_div_mul pos W spl).symm
    have hbl1 : 1 ≤ bl := by
      rcases Nat.eq_zero_or_pos bl with h | h
      · rw [h, Nat.zero_mul] at hlen
        omega
      · exact h
    -- the queried large index is below the in-scan entry count
    have hq_lt : pos / W / spl < (bl + spl - 1) / spl := by
      have h1 : (bl + spl - 1) = (bl - 1) + spl := by omega
      have h2 : (bl + spl - 1) / spl = (bl - 1) / spl + 1 := by
        rw [h1, Nat.add_div_right _ hspl]
      have h3 : pos / W / spl ≤ (bl - 1) / spl :=
        Nat.div_le_div_right (by omega)
      omega
    -- table reads
    have hread_large : IntVec64.get
        ⟨lg, (List.range ((bl + spl - 1) / spl)).map
            (fun q => wordSum W src (q * spl) % 2 ^ lg)
          ++ [wordSum W src bl % 2 ^ lg]⟩ (pos / (W * spl))
        = wordSum W src (pos / W / spl * spl) % 2 ^ lg := by
      unfold IntVec64.get
      simp only [hq_eq]
      exact getD_map_range _ hq_lt _
    have hread_small : IntVec64.get
        ⟨ceil_log2 64 (W * spl), (List.range bl).map
            (fun i => (wordSum W src i - wordSum W src (i / spl * spl)) % 2 ^ ceil_log2 64 (W * spl))
          ++ [(wordSum W src bl - wordSum W src ((bl - 1) / spl * spl)) % 2 ^ ceil_log2 64 (W * spl)]⟩
        (pos / W)
        = (wordSum W src (pos / W) - wordSum W src (pos / W / spl * spl))
            % 2 ^ ceil_log2 64 (W * spl) := by
      unfold IntVec64.get
      exact getD_map_range _ ht_lt _
    -- no truncation at the queried entries
    have hfit_large : wordSum W src (pos / W / spl * spl) % 2 ^ lg
        = wordSum W src (pos / W / spl * spl) := by
      apply Nat.mod_eq_of_lt
      have h1 : wordSum W src (pos / W / spl * spl) ≤ pos / W / spl * spl * W :=
        wordSum_le _ _ _
      have h2 : pos / W / spl * spl * W ≤ pos := by
        rw [← hq_eq]
        have h3 : pos / (W * spl) * (W * spl) ≤ pos := Nat.div_mul_le_self _ _
        calc pos / (W * spl) * spl * W = pos / (W * spl) * (W * spl) := by ring
          _ ≤ pos := h3
      have h4 := ceil_log2_ge src.bit_len hn2 h64
      rw [← hlg] at h4
      omega
    have hfit_small :
        (wordSum W src (pos / W) - wordSum W src (pos / W / spl * spl))
            % 2 ^ ceil_log2 64 (W * spl)
          = wordSum W src (pos / W) - wordSum W src (pos / W / spl * spl) := by
      apply Nat.mod_eq_of_lt
      have e_t := Nat.div_add_mod (pos / W) spl
      have hm := Nat.mod_lt (pos / W) hspl
      have hmono : pos / W / spl * spl ≤ pos / W := by
        have hc : pos / W / spl * spl = spl * (pos / W / spl) := Nat.mul_comm _ _
        omega
      have hsub := wordSum_sub_le W src hmono
      have hdiff : pos / W - pos / W / spl * spl = pos / W % spl := by
        have hc : pos / W / spl * spl = spl * (pos / W / spl) := Nat.mul_comm _ _
        omega
      rw [hdiff] at hsub
      have hlbs2 : wordSum W src (pos / W) - wordSum W src (pos / W / spl * spl)
          < W * spl := by
        have h1 : pos / W % spl * W ≤ (spl - 1) * W :=
          Nat.mul_le_mul_right _ (by omega)
        have h2 : (spl - 1) * W < W * spl := by
          have hc : spl * W = W * spl := Nat.mul_comm _ _
          have h4 : spl - 1 + 1 = spl := by omega
          have h3 : (spl - 1) * W + W = spl * W := by
            calc (spl - 1) * W + W = (spl - 1 + 1) * W := by ring
              _ = spl * W := by rw [h4]
          omega
        omega
      have hLBS64 : W * spl < 2 ^ 64 := by
        have h1 : spl ≤ lg * lg := by
          rcases Nat.eq_zero_or_pos (lg * lg) with h | h
          · rw [hspl_def]
            rw [h] at *
            have : (0 + W - 1) / W = 0 := by
              rw [Nat.zero_add]
              exact Nat.div_eq_of_lt (by omega)
            omega
          · rw [hspl_def]
            exact IntVec.ceil_le _ _ hW
        have h2 : lg ≤ 64 := by
          rw [hlg]
          exact ceil_log2_le _
        have h3 : lg * lg ≤ 64 * 64 := Nat.mul_le_mul h2 h2
        have h4 : W * spl ≤ 64 * (64 * 64) := by
          calc W * spl ≤ 64 * spl := Nat.mul_le_mul_right _ hW64
            _ ≤ 64 * (64 * 64) := Nat.mul_le_mul_left _ (by omega)
        calc W * spl ≤ 64 * (64 * 64) := h4
          _ < 2 ^ 64 := by norm_num
      have hpow := Nat.two_pow_pos (ceil_log2 64 (W * spl))
      rcases Nat.lt_or_ge (W * spl) 2 with hlbs1 | hlbs1
      · omega
      · have hLBSle := ceil_log2_ge (W * spl) hlbs1 hLBS64
        omega
    -- the word-internal popcount
    have hbits : popcountW W (src.get_block (pos / W) >>> (W - pos % W - 1))
        = countOnes W src (pos / W * W) (pos / W * W + pos % W + 1) := by
      rw [Nat.add_assoc]
      rw [popcountW_shifted W _ (pos % W) (hblocks _ ht_lt) hoff,
        countOnes_word_prefix W src (pos / W) (pos % W + 1) hW (by omega)]
    -- assemble
    simp only [RankSupport.rank, IntVec64.push]
    rw [hread_large, hread_small, hfit_large, hfit_small, hbits]
    have hA : wordSum W src (pos / W / spl * spl)
        = countOnes W src 0 (pos / W / spl * spl * W) :=
      wordSum_eq_countOnes W src _ hW (fun i hi => hblocks i (by
        have h1 : pos / W / spl * spl ≤ pos / W := by
          have e_t := Nat.div_add_mod (pos / W) spl
          have hc : pos / W / spl * spl = spl * (pos / W / spl) := Nat.mul_comm _ _
          omega
        omega))
    have hB : wordSum W src (pos / W) = countOnes W src 0 (pos / W * W) :=
      wordSum_eq_countOnes W src _ hW (fun i hi => hblocks i (by omega))
    have hmono2 : wordSum W src (pos / W / spl * spl) ≤ wordSum W src (pos / W) := by
      apply wordSum_mono
      have e_t := Nat.div_add_mod (pos / W) spl
      have hc : pos / W / spl * spl = spl * (pos / W / spl) := Nat.mul_comm _ _
      omega
    have hsplit1 : countOnes W src 0 (pos / W * W)
        + countOnes W src (pos / W * W) (pos / W * W + pos % W + 1)
        = countOnes W src 0 (pos / W * W + pos % W + 1) :=
      (countOnes_split W src 0 (pos / W * W) (pos / W * W + pos % W + 1)
        (by omega) (by omega)).symm
    have hpos_eq : pos / W * W + pos % W + 1 = pos + 1 := by
      have hc : pos / W * W = W * (pos / W) := Nat.mul_comm _ _
      omega
    rw [hpos_eq] at hsplit1
    have hpe : countOnes W src (pos / W * W) (pos / W * W + pos % W + 1)
        = countOnes W src (pos / W * W) (pos + 1) := by
      rw [hpos_eq]
    unfold countOnesInclusive
    omega

theorem countOnes_mono (W : ℕ) (src : BitSource) {a b c : ℕ} (h : b ≤ c) :
    countOnes W src a b ≤ countOnes W src a c := by
  unfold countOnes
  apply Finset.card_le_card
  exact Finset.filter_subset_filter _ (Finset.Ico_subset_Ico (le_refl a) h)

theorem sliceSource_WF (W : ℕ) (l : List ℕ) (h : ∀ x ∈ l, x < 2 ^ W) :
    (sliceSource W l).WF W := by
  refine ⟨le_refl _, ?_⟩
  intro i hi
  show l.getD i 0 < 2 ^ W
  rw [List.getD_eq_getElem?_getD, List.getElem?_eq_getElem hi]
  exact h _ (List.getElem_mem hi)

theorem rankTestStore_block {i : ℕ} (hi : i < 1024) :
    (sliceSource 32 rankTestStore).get_block i = 0b10000000000000001110000000000000 := by
  show rankTestStore.getD i 0 = _
  unfold rankTestStore
  rw [List.getD_eq_getElem?_getD, List.getElem?_replicate, if_pos hi]
  rfl

theorem rankTestStore_WF : (sliceSource 32 rankTestStore).WF 32 := by
  apply sliceSource_WF
  intro x hx
  unfold rankTestStore at hx
  have := List.eq_of_mem_replicate hx
  subst this
  norm_num

theorem rankTestStore_wordSum {t : ℕ} (ht : t ≤ 1024) :
    wordSum 32 (sliceSource 32 rankTestStore) t = 4 * t := by
  induction t with
  | zero => simp [wordSum]
  | succ t ih =>
    rw [wordSum_succ, ih (by omega), rankTestStore_block (by omega)]
    have hpc : popcountW 32 0b10000000000000001110000000000000 = 4 := by decide
    rw [hpc]
    ring

theorem rankTestStore_countOnes_words {t : ℕ} (ht : t ≤ 1024) :
    countOnes 32 (sliceSource 32 rankTestStore) 0 (t * 32) = 4 * t := by
  rw [← rankTestStore_wordSum ht]
  exact (wordSum_eq_countOnes 32 _ t (by norm_num)
    (fun i hi => rankTestStore_WF.2 i (by
      show i < rankTestStore.length
      unfold rankTestStore
      simp only [List.length_replicate]
      omega))).symm

/-! ## Claims about `RankSupport` -/

/-- **C1**: for every well-formed bit-addressable source over which the rank
index builds, and every position below the source's bit length,
`rank(position)` is the inclusive count of set bits over `[0, position]`;
and over the 1024-repetition test store the ten required values hold. -/
theorem claim_C1_rank :
    (∀ (W : ℕ) (src : BitSource) (r : RankSupport) (pos : ℕ),
      0 < W → W ≤ 64 → src.bit_len < 2 ^ 64 → src.WF W →
      RankSupport.new W src = some r → pos < src.bit_len →
      r.rank W src pos = countOnesInclusive W src pos)
    ∧ (∃ r, RankSupport.new 32 (sliceSource 32 rankTestStore) = some r
        ∧ r.rank 32 (sliceSource 32 rankTestStore) 0 = 1
        ∧ r.rank 32 (sliceSource 32 rankTestStore) 7 = 1
        ∧ r.rank 32 (sliceSource 32 rankTestStore) 16 = 2
        ∧ r.rank 32 (sliceSource 32 rankTestStore) 17 = 3
        ∧ r.rank 32 (sliceSource 32 rankTestStore) 18 = 4
        ∧ r.rank 32 (sliceSource 32 rankTestStore) 20 = 4
        ∧ r.rank 32 (sliceSource 32 rankTestStore) (4 * 32 - 1) = 16
        ∧ r.rank 32 (sliceSource 32 rankTestStore) (4 * 32) = 17
        ∧ r.rank 32 (sliceSource 32 rankTestStore) (512 * 32 - 1) = 2048
        ∧ r.rank 32 (sliceSource 32 rankTestStore) (512 * 32) = 2049) := by
  have hgen : ∀ (W : ℕ) (src : BitSource) (r : RankSupport) (pos : ℕ),
      0 < W → W ≤ 64 → src.bit_len < 2 ^ 64 → src.WF W →
      RankSupport.new W src = some r → pos < src.bit_len →
      r.rank W src pos = countOnesInclusive W src pos := by
    intro W src r pos hW hW64 h64 hsrc hr hpos
    exact rank_correct W src r pos hW hW64 h64 hsrc hr hpos
  refine ⟨hgen, ?_⟩
  have hbitlen : (sliceSource 32 rankTestStore).bit_len = 32768 := by
    show rankTestStore.length * 32 = 32768
    unfold rankTestStore
    rw [List.length_replicate]
  cases hnew : RankSupport.new 32 (sliceSource 32 rankTestStore) with
  | none =>
    exfalso
    simp only [RankSupport.new] at hnew
    rw [if_neg ?_] at hnew
    · exact Option.noConfusion hnew
    · rw [hbitlen]
      decide
  | some r =>
    have hv : ∀ pos, pos < 32768 →
        r.rank 32 (sliceSource 32 rankTestStore) pos
          = countOnesInclusive 32 (sliceSource 32 rankTestStore) pos := by
      intro pos hpos
      exact hgen 32 _ r pos (by norm_num) (by norm_num)
        (by rw [hbitlen]; norm_num) rankTestStore_WF hnew (by omega)
    have hsucc : ∀ t p, p = t * 32 → t ≤ 1024 → p < 32768 →
        countOnesInclusive 32 (sliceSource 32 rankTestStore) p
          = 4 * t + (if srcBit 32 (sliceSource 32 rankTestStore) p then 1 else 0) := by
      intro t p hp ht hplt
      unfold countOnesInclusive
      rw [countOnes_succ 32 _ 0 p (by omega), hp, rankTestStore_countOnes_words ht,
        ← hp]
    refine ⟨r, rfl, ?_, ?_, ?_, ?_, ?_, ?_, ?_, ?_, ?_, ?_⟩
    · rw [hv 0 (by norm_num)]
      decide
    · rw [hv 7 (by norm_num)]
      decide
    · rw [hv 16 (by norm_num)]
      decide
    · rw [hv 17 (by norm_num)]
      decide
    · rw [hv 18 (by norm_num)]
      decide
    · rw [hv 20 (by norm_num)]
      decide
    · rw [hv (4 * 32 - 1) (by norm_num)]
      show countOnesInclusive 32 (sliceSource 32 rankTestStore) 127 = 16
      unfold countOnesInclusive
      have : (127 : ℕ) + 1 = 4 * 32 := by norm_num
      rw [this]
      exact rankTestStore_countOnes_words (by norm_num)
    · rw [hv (4 * 32) (by norm_num)]
      have h1 := hsucc 4 (4 * 32) (by norm_num) (by norm_num) (by norm_num)
      rw [h1]
      have hbit : srcBit 32 (sliceSource 32 rankTestStore) (4 * 32) = true := by
        have h2 : (4 : ℕ) * 32 = 4 * 32 + 0 := by norm_num
        rw [h2, srcBit_in_word 32 _ 4 0 (by norm_num) (by norm_num),
          rankTestStore_block (by norm_num)]
        decide
      rw [hbit]
      norm_num
    · rw [hv (512 * 32 - 1) (by norm_num)]
      show countOnesInclusive 32 (sliceSource 32 rankTestStore) 16383 = 2048
      unfold countOnesInclusive
      have : (16383 : ℕ) + 1 = 512 * 32 := by norm_num
      rw [this]
      exact rankTestStore_countOnes_words (by norm_num)
    · rw [hv (512 * 32) (by norm_num)]
      have h1 := hsucc 512 (512 * 32) (by norm_num) (by norm_num) (by norm_num)
      rw [h1]
      have hbit : srcBit 32 (sliceSource 32 rankTestStore) (512 * 32) = true := by
        have h2 : (512 : ℕ) * 32 = 512 * 32 + 0 := by norm_num
        rw [h2, srcBit_in_word 32 _ 512 0 (by norm_num) (by norm_num),
          rankTestStore_block (by norm_num)]
        decide
      rw [hbit]
      norm_num

/-- Witness for C1's universally quantified part at a small concrete
source (`W = 8`, blocks `[129, 7]`, position 9). -/
theorem claim_C1_rank_witness :
    RankSupport.new 8 (sliceSource 8 [129, 7])
        = some ⟨16, ⟨4, [0, 5]⟩, ⟨4, [0, 2, 5]⟩⟩
    ∧ RankSupport.rank 8 (sliceSource 8 [129, 7]) ⟨16, ⟨4, [0, 5]⟩, ⟨4, [0, 2, 5]⟩⟩ 9
        = countOnesInclusive 8 (sliceSource 8 [129, 7]) 9 :=
  ⟨by decide,
    claim_C1_rank.1 8 (sliceSource 8 [129, 7]) ⟨16, ⟨4, [0, 5]⟩, ⟨4, [0, 2, 5]⟩⟩ 9
      (by norm_num) (by norm_num) (by decide)
      (sliceSource_WF 8 [129, 7] (by decide)) (by decide) (by decide)⟩

/-- **C4 counterexample**: over the one-block source `[0b10000001]` with
`W = 8`, at position 0 the claimed formula (popcount of the high
`W − bit_offset` bits, i.e. the block shifted right by `bit_offset`) gives
`0 + 0 + 2`, but `rank(0) = 1`. -/
theorem claim_C4_counterexample :
    ∃ r, RankSupport.new 8 (sliceSource 8 [129]) = some r ∧
      ¬ (r.rank 8 (sliceSource 8 [129]) 0
        = r.large_block_ranks.get (0 / r.large_block_size)
          + r.small_block_ranks.get (0 / 8)
          + popcountW 8 ((sliceSource 8 [129]).get_block (0 / 8) >>> (0 % 8))) := by
  refine ⟨⟨16, ⟨3, [0, 2]⟩, ⟨4, [0, 2]⟩⟩, by decide, by decide⟩

/-- **C4 (amended)**: for every position below the source's bit length,
`rank(position)` equals
`large_block_ranks[position / large_block_size] +
small_block_ranks[position / W] +` the population count of the high
`bit_offset + 1` bits of source word `position / W` — the word shifted
right by `W − bit_offset − 1` and popcounted — where
`bit_offset = position % W` counts from the most significant bit. -/
theorem claim_C4_decomposition (W : ℕ) (src : BitSource) (r : RankSupport) (pos : ℕ)
    (hr : RankSupport.new W src = some r) (hpos : pos < src.bit_len) :
    r.rank W src pos
      = r.large_block_ranks.get (pos / r.large_block_size)
        + r.small_block_ranks.get (pos / W)
        + popcountW W (src.get_block (pos / W) >>> (W - pos % W - 1)) := rfl

/-- Witness for the amended C4 over the `[129]` source at position 0. -/
theorem claim_C4_decomposition_witness :
    RankSupport.rank 8 (sliceSource 8 [129]) ⟨16, ⟨3, [0, 2]⟩, ⟨4, [0, 2]⟩⟩ 0
      = IntVec64.get (⟨16, ⟨3, [0, 2]⟩, ⟨4, [0, 2]⟩⟩ : RankSupport).large_block_ranks
          (0 / (⟨16, ⟨3, [0, 2]⟩, ⟨4, [0, 2]⟩⟩ : RankSupport).large_block_size)
        + IntVec64.get (⟨16, ⟨3, [0, 2]⟩, ⟨4, [0, 2]⟩⟩ : RankSupport).small_block_ranks (0 / 8)
        + popcountW 8 ((sliceSource 8 [129]).get_block (0 / 8) >>> (8 - 0 % 8 - 1)) :=
  claim_C4_decomposition 8 (sliceSource 8 [129]) ⟨16, ⟨3, [0, 2]⟩, ⟨4, [0, 2]⟩⟩ 0
    (by decide) (by decide)

/-- **C6**: `ceil_log2` does explicitly return `lg_n = 0` for `n ≤ 1`, but
construction then divides by zero (`n / large_block_size` with
`large_block_size = 0`), so `RankSupport::new` faults rather than succeeds
on every source with `bit_len ≤ 1`; in particular on the empty `u32`
slice. -/
theorem claim_C6_base_case :
    (∀ (W : ℕ) (src : BitSource), 0 < W → src.bit_len ≤ 1 →
      ceil_log2 64 src.bit_len = 0 ∧ RankSupport.new W src = none)
    ∧ RankSupport.new 32 (sliceSource 32 []) = none := by
  have hgen : ∀ (W : ℕ) (src : BitSource), 0 < W → src.bit_len ≤ 1 →
      ceil_log2 64 src.bit_len = 0 ∧ RankSupport.new W src = none := by
    intro W src hW hn
    have hlg : ceil_log2 64 src.bit_len = 0 := by
      unfold ceil_log2
      rw [if_pos hn]
    refine ⟨hlg, ?_⟩
    simp only [RankSupport.new, hlg]
    rw [if_pos ?_]
    rw [Nat.zero_mul, Nat.zero_add, Nat.div_eq_of_lt (by omega), Nat.mul_zero]
  refine ⟨hgen, ?_⟩
  exact (hgen 32 (sliceSource 32 []) (by norm_num) (by decide)).2

/-- Witness for C6's universally quantified part on the empty slice. -/
theorem claim_C6_base_case_witness :
    ceil_log2 64 (sliceSource 32 []).bit_len = 0
    ∧ RankSupport.new 32 (sliceSource 32 []) = none :=
  claim_C6_base_case.1 32 (sliceSource 32 []) (by norm_num) (by decide)

/-- **C7**: rank is monotone: for positions `p1 < p2` within the source's
bit length, `rank(p1) ≤ rank(p2)`. -/
theorem claim_C7_monotone (W : ℕ) (src : BitSource) (r : RankSupport) (p1 p2 : ℕ)
    (hW : 0 < W) (hW64 : W ≤ 64) (h64 : src.bit_len < 2 ^ 64) (hsrc : src.WF W)
    (hr : RankSupport.new W src = some r)
    (h12 : p1 < p2) (h2 : p2 < src.bit_len) :
    r.rank W src p1 ≤ r.rank W src p2 := by
  rw [rank_correct W src r p1 hW hW64 h64 hsrc hr (by omega),
    rank_correct W src r p2 hW hW64 h64 hsrc hr h2]
  exact countOnes_mono W src (by omega)

/-- Witness for C7 over the `[129, 7]` source at positions `3 < 9`. -/
theorem claim_C7_monotone_witness :
    RankSupport.rank 8 (sliceSource 8 [129, 7]) ⟨16, ⟨4, [0, 5]⟩, ⟨4, [0, 2, 5]⟩⟩ 3
      ≤ RankSupport.rank 8 (sliceSource 8 [129, 7]) ⟨16, ⟨4, [0, 5]⟩, ⟨4, [0, 2, 5]⟩⟩ 9 :=
  claim_C7_monotone 8 (sliceSource 8 [129, 7]) ⟨16, ⟨4, [0, 5]⟩, ⟨4, [0, 2, 5]⟩⟩ 3 9
    (by norm_num) (by norm_num) (by decide) (sliceSource_WF 8 [129, 7] (by decide))
    (by decide) (by norm_num) (by decide)

end Succinct
